import Mathlib

/-!
Shallow embedding of the HolySheet Figma plugin (src/code.ts, modular
IIFE refactor: CONFIG, Inspector, LayoutService, run) together with
proofs about the embedded definitions.

Modelling conventions:
* JS numbers are modelled as `ℚ` (all arithmetic in the source is exact
  on the inputs of interest; no floating-point-specific behavior is used).
* JS `Record<string, string>` objects are modelled as association lists
  `List (String × String)` with distinct keys and insertion order, looked
  up by first match.
* JS `Map` / `Set` are modelled as association lists / lists preserving
  insertion order (`mapSet` replaces in place or appends, mirroring the
  ECMAScript `Map.set` semantics; sets are built with `dedupAppend`).
* `Array.prototype.sort` (stable since ES2019) is modelled by the stable
  insertion sort `stableSortBy`; the default string sort and
  `localeCompare` are modelled by Lean's lexicographic order on `String`
  (identical to the JS code-unit order on the ASCII strings involved).
* `Number(s)` is modelled by `numVal`, a decimal parser returning `0` for
  the empty string (as in JS) and for non-numeric strings (where JS
  produces `NaN` and the comparator result is unspecified).
-/

namespace HolySheet

/-! ## Stable sorting (model of `Array.prototype.sort`) -/

/-- Insert `x` into `l` after every element `y` with `le y x` — the
insertion step of a stable insertion sort. -/
def insertLe (le : α → α → Bool) (x : α) : List α → List α
  | [] => [x]
  | y :: ys => if le y x then y :: insertLe le x ys else x :: y :: ys

/-- Stable insertion sort: elements are inserted left to right, each new
element landing after any element it compares equal to. This models the
(stable) ECMAScript `Array.prototype.sort` with comparator `le`. -/
def stableSortBy (le : α → α → Bool) (l : List α) : List α :=
  l.foldl (fun acc x => insertLe le x acc) []

theorem insertLe_perm (le : α → α → Bool) (x : α) (l : List α) :
    List.Perm (insertLe le x l) (x :: l) := by
  induction l with
  | nil => simp [insertLe]
  | cons y ys ih =>
    simp only [insertLe]
    split
    · exact ((ih.cons y).trans (List.Perm.swap x y ys))
    · exact List.Perm.refl _

theorem stableSortBy_aux_perm (le : α → α → Bool) (l acc : List α) :
    List.Perm (l.foldl (fun acc x => insertLe le x acc) acc) (acc ++ l) := by
  induction l generalizing acc with
  | nil => simp
  | cons x xs ih =>
    simp only [List.foldl_cons]
    refine (ih (insertLe le x acc)).trans ?_
    have h1 : List.Perm (insertLe le x acc ++ xs) ((x :: acc) ++ xs) :=
      (insertLe_perm le x acc).append_right xs
    refine h1.trans ?_
    simpa using (@List.perm_middle _ x acc xs).symm

theorem stableSortBy_perm (le : α → α → Bool) (l : List α) :
    List.Perm (stableSortBy le l) l := by
  simpa using stableSortBy_aux_perm le l []

theorem mem_stableSortBy (le : α → α → Bool) (l : List α) (a : α) :
    a ∈ stableSortBy le l ↔ a ∈ l :=
  (stableSortBy_perm le l).mem_iff

/-- Totality of a Boolean comparator. -/
def LeTotal (le : α → α → Bool) : Prop := ∀ a b, le a b = true ∨ le b a = true

/-- Transitivity of a Boolean comparator. -/
def LeTrans (le : α → α → Bool) : Prop :=
  ∀ a b c, le a b = true → le b c = true → le a c = true

theorem insertLe_pairwise (le : α → α → Bool) (htot : LeTotal le)
    (htr : LeTrans le) (x : α) (l : List α)
    (hl : l.Pairwise (fun a b => le a b = true)) :
    (insertLe le x l).Pairwise (fun a b => le a b = true) := by
  induction l with
  | nil => simp [insertLe]
  | cons y ys ih =>
    obtain ⟨hy, hys⟩ := List.pairwise_cons.1 hl
    simp only [insertLe]
    split
    · rename_i hyx
      refine List.Pairwise.cons ?_ (ih hys)
      intro z hz
      rcases List.mem_cons.1 (((insertLe_perm le x ys).mem_iff).1 hz) with rfl | hz
      · exact hyx
      · exact hy z hz
    · rename_i hyx
      have hxy : le x y = true := by
        rcases htot x y with h | h
        · exact h
        · exact absurd h hyx
      refine List.Pairwise.cons ?_ (List.Pairwise.cons hy hys)
      intro z hz
      rcases List.mem_cons.1 hz with rfl | hz
      · exact hxy
      · exact htr x y z hxy (hy z hz)

theorem stableSortBy_pairwise (le : α → α → Bool) (htot : LeTotal le)
    (htr : LeTrans le) (l : List α) :
    (stableSortBy le l).Pairwise (fun a b => le a b = true) := by
  have key : ∀ (l acc : List α),
      acc.Pairwise (fun a b => le a b = true) →
      (l.foldl (fun acc x => insertLe le x acc) acc).Pairwise
        (fun a b => le a b = true) := by
    intro l
    induction l with
    | nil => intro acc h; simpa using h
    | cons x xs ih =>
      intro acc h
      exact ih _ (insertLe_pairwise le htot htr x acc h)
  exact key l [] (by simp)

/-- If every element of `l` sorts before `x`, insertion appends `x`. -/
theorem insertLe_append (le : α → α → Bool) (x : α) (l : List α)
    (h : ∀ y ∈ l, le y x = true) : insertLe le x l = l ++ [x] := by
  induction l with
  | nil => simp [insertLe]
  | cons y ys ih =>
    simp only [insertLe, h y (by simp), if_pos]
    rw [ih (fun z hz => h z (by simp [hz]))]
    simp

/-- Sorting an already `le`-sorted list returns it unchanged. -/
theorem stableSortBy_sorted_id (le : α → α → Bool) (l : List α)
    (hl : l.Pairwise (fun a b => le a b = true)) : stableSortBy le l = l := by
  have key : ∀ (l acc : List α),
      (acc ++ l).Pairwise (fun a b => le a b = true) →
      l.foldl (fun acc x => insertLe le x acc) acc = acc ++ l := by
    intro l
    induction l with
    | nil => intro acc _; simp
    | cons x xs ih =>
      intro acc h
      have hx : ∀ y ∈ acc, le y x = true := by
        intro y hy
        exact (List.pairwise_append.1 h).2.2 y hy x (by simp)
      simp only [List.foldl_cons]
      rw [insertLe_append le x acc hx, ih (acc ++ [x]) (by simpa using h)]
      simp
  simpa using key l [] (by simpa using hl)

/-- Two sorted permutations of each other are equal, provided the
comparator is antisymmetric on the elements involved. -/
theorem perm_sorted_eq (le : α → α → Bool) :
    ∀ (l₁ l₂ : List α), List.Perm l₁ l₂ →
    l₁.Pairwise (fun a b => le a b = true) →
    l₂.Pairwise (fun a b => le a b = true) →
    (∀ a ∈ l₁, ∀ b ∈ l₁, le a b = true → le b a = true → a = b) →
    l₁ = l₂ := by
  intro l₁
  induction l₁ with
  | nil =>
    intro l₂ hp _ _ _
    exact (hp.symm.eq_nil).symm
  | cons x xs ih =>
    intro l₂ hp h₁ h₂ hanti
    cases l₂ with
    | nil => exact absurd hp.eq_nil (by simp)
    | cons y ys =>
      have hxy : x = y := by
        by_contra hne
        have hymem : y ∈ x :: xs := hp.mem_iff.2 (by simp)
        have hxmem : x ∈ y :: ys := hp.mem_iff.1 (by simp)
        have hyx : y ∈ xs := by
          rcases List.mem_cons.1 hymem with h | h
          · exact absurd h.symm hne
          · exact h
        have hxy' : x ∈ ys := by
          rcases List.mem_cons.1 hxmem with h | h
          · exact absurd h hne
          · exact h
        have hle1 : le x y = true := (List.pairwise_cons.1 h₁).1 y hyx
        have hle2 : le y x = true := (List.pairwise_cons.1 h₂).1 x hxy'
        exact hne (hanti x (by simp) y (by simp [hyx]) hle1 hle2)
      subst hxy
      have hp' : List.Perm xs ys := (List.perm_cons x).1 hp
      have := ih ys hp' (List.pairwise_cons.1 h₁).2 (List.pairwise_cons.1 h₂).2
        (fun a ha b hb => hanti a (by simp [ha]) b (by simp [hb]))
      rw [this]

/-! ## Ordered de-duplication (model of building a JS `Set`) -/

/-- Append `v` to `l` if not already there (JS `Set.add` followed by
`Array.from` preserves first-insertion order). -/
def dedupAppend (l : List String) (v : String) : List String :=
  if v ∈ l then l else l ++ [v]

/-- Insertion-order-preserving de-duplication of a list of strings:
the order of an `Array.from` over a JS `Set` fed the list in order. -/
def dedupInOrder (l : List String) : List String :=
  l.foldl dedupAppend []

theorem dedupInOrder_aux_mem (l acc : List String) (a : String) :
    a ∈ l.foldl dedupAppend acc ↔ a ∈ acc ∨ a ∈ l := by
  induction l generalizing acc with
  | nil => simp
  | cons x xs ih =>
    simp only [List.foldl_cons, ih, dedupAppend]
    split
    · rename_i hx
      constructor
      · rintro (h | h)
        · exact Or.inl h
        · exact Or.inr (by simp [h])
      · rintro (h | h)
        · exact Or.inl h
        · rcases List.mem_cons.1 h with rfl | h
          · exact Or.inl hx
          · exact Or.inr h
    · simp only [List.mem_append, List.mem_singleton]
      constructor
      · rintro ((h | h) | h)
        · exact Or.inl h
        · exact Or.inr (by simp [h])
        · exact Or.inr (by simp [h])
      · rintro (h | h)
        · exact Or.inl (Or.inl h)
        · rcases List.mem_cons.1 h with rfl | h
          · exact Or.inl (Or.inr rfl)
          · exact Or.inr h

theorem mem_dedupInOrder (l : List String) (a : String) :
    a ∈ dedupInOrder l ↔ a ∈ l := by
  simpa [dedupInOrder] using dedupInOrder_aux_mem l [] a

theorem dedupInOrder_aux_nodup (l : List String) (acc : List String)
    (hacc : acc.Nodup) : (l.foldl dedupAppend acc).Nodup := by
  induction l generalizing acc with
  | nil => simpa using hacc
  | cons x xs ih =>
    simp only [List.foldl_cons]
    refine ih _ ?_
    unfold dedupAppend
    split
    · exact hacc
    · rename_i hx
      simpa [List.nodup_append] using ⟨hacc, hx⟩

theorem dedupInOrder_nodup (l : List String) : (dedupInOrder l).Nodup :=
  dedupInOrder_aux_nodup l [] (by simp)

/-! ## Comparators used by the source -/

/-- Lexicographic `≤` on character lists, comparing code points. -/
def lexLeCh : List Char → List Char → Bool
  | [], _ => true
  | _ :: _, [] => false
  | a :: as, b :: bs =>
    if a.toNat < b.toNat then true
    else if b.toNat < a.toNat then false
    else lexLeCh as bs

/-- Model of the JS default string sort and of `localeCompare` as they
act on the ASCII strings handled by the plugin: lexicographic code-unit
comparison. -/
def strLe (a b : String) : Bool := lexLeCh a.data b.data

theorem char_toNat_inj {a b : Char} (h : a.toNat = b.toNat) : a = b :=
  Char.ext (UInt32.toNat.inj h)

theorem lexLeCh_cons_iff (a b : Char) (as bs : List Char) :
    lexLeCh (a :: as) (b :: bs) = true ↔
      a.toNat < b.toNat ∨ (a.toNat = b.toNat ∧ lexLeCh as bs = true) := by
  show (if a.toNat < b.toNat then true
    else if b.toNat < a.toNat then false else lexLeCh as bs) = true ↔ _
  rcases Nat.lt_trichotomy a.toNat b.toNat with h | h | h
  · simp [h]
  · simp [h, Nat.lt_irrefl]
  · rw [if_neg (Nat.lt_asymm h), if_pos h]
    constructor
    · intro hf
      exact absurd hf (by simp)
    · rintro (h2 | ⟨h2, _⟩)
      · exact absurd h2 (Nat.lt_asymm h)
      · exact absurd h (h2 ▸ Nat.lt_irrefl _)

theorem lexLeCh_total : ∀ as bs : List Char,
    lexLeCh as bs = true ∨ lexLeCh bs as = true
  | [], _ => Or.inl rfl
  | _ :: _, [] => Or.inr rfl
  | a :: as, b :: bs => by
    rw [lexLeCh_cons_iff, lexLeCh_cons_iff]
    rcases Nat.lt_trichotomy a.toNat b.toNat with h | h | h
    · exact Or.inl (Or.inl h)
    · rcases lexLeCh_total as bs with h2 | h2
      · exact Or.inl (Or.inr ⟨h, h2⟩)
      · exact Or.inr (Or.inr ⟨h.symm, h2⟩)
    · exact Or.inr (Or.inl h)

theorem lexLeCh_trans : ∀ as bs cs : List Char,
    lexLeCh as bs = true → lexLeCh bs cs = true → lexLeCh as cs = true
  | [], _, _ => by intro _ _; rfl
  | _ :: _, [], _ => by intro h _; exact absurd h (by simp [lexLeCh])
  | _ :: _, _ :: _, [] => by intro _ h; exact absurd h (by simp [lexLeCh])
  | a :: as, b :: bs, c :: cs => by
    rw [lexLeCh_cons_iff, lexLeCh_cons_iff, lexLeCh_cons_iff]
    rintro (h1 | ⟨h1, h1'⟩) (h2 | ⟨h2, h2'⟩)
    · exact Or.inl (Nat.lt_trans h1 h2)
    · exact Or.inl (h2 ▸ h1)
    · exact Or.inl (h1 ▸ h2)
    · exact Or.inr ⟨h1.trans h2, lexLeCh_trans as bs cs h1' h2'⟩

theorem lexLeCh_antisymm : ∀ as bs : List Char,
    lexLeCh as bs = true → lexLeCh bs as = true → as = bs
  | [], [] => by intro _ _; rfl
  | [], _ :: _ => by intro _ h; exact absurd h (by simp [lexLeCh])
  | _ :: _, [] => by intro h _; exact absurd h (by simp [lexLeCh])
  | a :: as, b :: bs => by
    rw [lexLeCh_cons_iff, lexLeCh_cons_iff]
    rintro (h1 | ⟨h1, h1'⟩) (h2 | ⟨h2, h2'⟩)
    · exact absurd h2 (Nat.lt_asymm h1)
    · exact absurd h1 (h2 ▸ Nat.lt_irrefl _)
    · exact absurd h2 (h1 ▸ Nat.lt_irrefl _)
    · rw [char_toNat_inj h1, lexLeCh_antisymm as bs h1' h2']

theorem string_data_inj {a b : String} (h : a.data = b.data) : a = b := by
  cases a
  cases b
  exact congrArg String.mk h

theorem strLe_total : LeTotal strLe := fun a b => lexLeCh_total a.data b.data

theorem strLe_trans : LeTrans strLe := fun a b c h1 h2 =>
  lexLeCh_trans a.data b.data c.data h1 h2

theorem strLe_antisymm (a b : String) (h1 : strLe a b = true)
    (h2 : strLe b a = true) : a = b :=
  string_data_inj (lexLeCh_antisymm a.data b.data h1 h2)

/-- Decimal value of a digit character, if it is one. -/
def digitVal (c : Char) : Option ℕ :=
  if '0' ≤ c ∧ c ≤ '9' then some (c.toNat - '0'.toNat) else none

/-- Parse a nonempty all-digit character list as a natural number. -/
def parseDigits : List Char → Option ℕ
  | [] => none
  | [c] => digitVal c
  | c :: rest => do
    let d ← digitVal c
    let r ← parseDigits rest
    pure (d * 10 ^ rest.length + r)

/-- Parse an optional fraction part `.digits` appended to integer part `n`. -/
def parseFrac (n : ℕ) : List Char → Option ℚ
  | [] => some (n : ℚ)
  | '.' :: rest => do
    let f ← parseDigits rest
    pure ((n : ℚ) + (f : ℚ) / (10 ^ rest.length : ℚ))
  | _ => none

/-- Split a character list at the first `'.'`. -/
def splitAtDot (l : List Char) : List Char × List Char :=
  match l with
  | [] => ([], [])
  | '.' :: rest => ([], '.' :: rest)
  | c :: rest =>
    let (a, b) := splitAtDot rest
    (c :: a, b)

/-- Parse an unsigned decimal numeral. -/
def parseUnsigned (l : List Char) : Option ℚ :=
  let (intPart, fracPart) := splitAtDot l
  match intPart with
  | [] => none
  | _ => do
    let n ← parseDigits intPart
    parseFrac n fracPart

/-- Model of the JS `Number(s)` conversion on the strings the plugin
sorts: `""` converts to `0` (as in JS); a decimal numeral with optional
sign converts to its value; any other string is modelled as `0`
(JS yields `NaN` there, for which the comparator `Number(a) - Number(b)`
returns `NaN` and the resulting order is unspecified). -/
def numVal (s : String) : ℚ :=
  match s.data with
  | [] => 0
  | '-' :: rest => -((parseUnsigned rest).getD 0)
  | l => (parseUnsigned l).getD 0

/-- Comparator model for `(a, b) => Number(a) - Number(b)`. -/
def numLe (a b : String) : Bool := decide (numVal a ≤ numVal b)

theorem numLe_total : LeTotal numLe := by
  intro a b
  rcases le_total (numVal a) (numVal b) with h | h
  · exact Or.inl (by simpa [numLe] using h)
  · exact Or.inr (by simpa [numLe] using h)

theorem numLe_trans : LeTrans numLe := by
  intro a b c hab hbc
  simp only [numLe, decide_eq_true_eq] at *
  exact le_trans hab hbc

/-! ## Data model (scene nodes as handled by the plugin) -/

/-- Figma layout constraints (`{ horizontal, vertical }`). -/
structure Constraints where
  horizontal : String
  vertical : String
deriving DecidableEq

/-- The `MIN`/`MIN` constraints written by `Inspector.resetConstraints`. -/
def minConstraints : Constraints := ⟨"MIN", "MIN"⟩

/-- A node nested inside a variant component. Only the fields the plugin
can touch or that witness non-mutation are modelled: a size (never
written by the plugin), an optional `constraints` field (the `if
("constraints" in node)` duck-typing check) and child nodes. -/
inductive InnerNode where
  | mk (width : ℚ) (height : ℚ) (constraints : Option Constraints)
      (children : List InnerNode)

mutual

def innerBeq : InnerNode → InnerNode → Bool
  | .mk w1 h1 c1 ch1, .mk w2 h2 c2 ch2 =>
    w1 == w2 && h1 == h2 && c1 == c2 && innerBeqList ch1 ch2

def innerBeqList : List InnerNode → List InnerNode → Bool
  | [], [] => true
  | a :: as, b :: bs => innerBeq a b && innerBeqList as bs
  | _, _ => false

end

mutual

theorem innerBeq_eq : ∀ a b : InnerNode, innerBeq a b = true ↔ a = b
  | .mk w1 h1 c1 ch1, .mk w2 h2 c2 ch2 => by
    simp only [innerBeq, Bool.and_eq_true, beq_iff_eq, InnerNode.mk.injEq]
    rw [innerBeqList_eq ch1 ch2]
    tauto

theorem innerBeqList_eq : ∀ as bs : List InnerNode,
    innerBeqList as bs = true ↔ as = bs
  | [], [] => by simp [innerBeqList]
  | [], _ :: _ => by simp [innerBeqList]
  | _ :: _, [] => by simp [innerBeqList]
  | a :: as, b :: bs => by
    simp only [innerBeqList, Bool.and_eq_true, List.cons.injEq]
    rw [innerBeq_eq a b, innerBeqList_eq as bs]

end

instance : DecidableEq InnerNode := fun a b =>
  decidable_of_iff _ (innerBeq_eq a b)

/-- A `COMPONENT` child of a `ComponentSet` (a variant). `props` models
`variantProperties` (a JS object: distinct keys, insertion order). -/
structure ComponentNode where
  name : String
  x : ℚ
  y : ℚ
  width : ℚ
  height : ℚ
  rotation : ℚ
  props : List (String × String)
  constraints : Constraints
  inner : List InnerNode
deriving DecidableEq

/-- A non-`COMPONENT` child of a `ComponentSet` (skipped by the variant
scan but still moved by the bounding-box pass of `apply`). -/
structure OtherNode where
  name : String
  x : ℚ
  y : ℚ
  width : ℚ
  height : ℚ
deriving DecidableEq

/-- A direct child of a `ComponentSetNode`, tagged by its type. -/
inductive ChildNode where
  | comp (c : ComponentNode)
  | other (o : OtherNode)
deriving DecidableEq

/-- A `COMPONENT_SET` node. -/
structure ComponentSetNode where
  name : String
  x : ℚ
  y : ℚ
  width : ℚ
  height : ℚ
  children : List ChildNode
deriving DecidableEq

def ChildNode.isComp : ChildNode → Bool
  | .comp _ => true
  | .other _ => false

def ChildNode.getX : ChildNode → ℚ
  | .comp c => c.x
  | .other o => o.x

def ChildNode.getY : ChildNode → ℚ
  | .comp c => c.y
  | .other o => o.y

def ChildNode.getW : ChildNode → ℚ
  | .comp c => c.width
  | .other o => o.width

def ChildNode.getH : ChildNode → ℚ
  | .comp c => c.height
  | .other o => o.height

/-- The `COMPONENT` children of a set, in storage order (the
`child.type !== "COMPONENT"` filter). -/
def compChildren (S : ComponentSetNode) : List ComponentNode :=
  S.children.filterMap (fun ch => match ch with
    | .comp c => some c
    | .other _ => none)

/-- Lookup in a JS-object model (`props[k]`, `undefined` as `none`). -/
def propGet (props : List (String × String)) (k : String) : Option String :=
  (props.find? (fun p => p.1 == k)).map (fun p => p.2)

/-- Lookup with the `?? ""` fallback used throughout the source. -/
def propGetD (props : List (String × String)) (k : String) : String :=
  (propGet props k).getD ""

/-! ## JS `Map` model (insertion-ordered association list) -/

/-- `Map.set`: replace in place if the key exists, else append. -/
def mapSet (m : List (String × α)) (k : String) (v : α) : List (String × α) :=
  if m.any (fun p => p.1 == k) then
    m.map (fun p => if p.1 == k then (k, v) else p)
  else m ++ [(k, v)]

/-- `Map.get`: first (only) entry with the key. -/
def mapGet (m : List (String × α)) (k : String) : Option α :=
  (m.find? (fun p => p.1 == k)).map (fun p => p.2)

/-! ## CONFIG -/

def CONFIG.padding : ℚ := 20
def CONFIG.step : ℚ := 52
def CONFIG.gapBetweenBlocks : ℚ := 52
def CONFIG.gapBetweenSets : ℚ := 20

/-! ## Inspector -/

/-- The JS `Array.prototype.join("|")`. -/
def joinPipe : List String → String
  | [] => ""
  | [s] => s
  | s :: rest => s ++ "|" ++ joinPipe rest

/-- `Inspector.variantKey`: the canonical key of a variant — its values
for `keys` in order (absent keys become `""`), joined with `"|"`. -/
def variantKey (props : List (String × String)) (keys : List String) : String :=
  joinPipe (keys.map (propGetD props))

/-- The analysis result of one `ComponentSet`
(`VariantInfo`): sorted distinct property keys, per-key distinct value
lists in first-insertion order (the JS `Record<string, Set<string>>`),
and the variants sorted by node name. -/
structure VariantInfo where
  propertyKeys : List String
  propertyValues : List (String × List String)
  variants : List ComponentNode
deriving DecidableEq

/-- All keys appearing in the components' property objects, in
iteration order (children order, then entry order). -/
def allPropKeys (comps : List ComponentNode) : List String :=
  (comps.flatMap (fun c => c.props)).map (fun p => p.1)

/-- The distinct values observed for key `k`, in first-insertion order.
For property objects with distinct keys (JS objects) this is exactly the
`valMap[k]` set built by `Inspector.readVariantProperties`. -/
def valuesFor (comps : List ComponentNode) (k : String) : List String :=
  dedupInOrder (comps.filterMap (fun c => propGet c.props k))

/-- `Inspector.readVariantProperties`: scan the `COMPONENT` children,
collect keys and value sets, sort the variants by name
(`localeCompare`), and sort the key list; `null` when no variants. -/
def readVariantProperties (S : ComponentSetNode) : Option VariantInfo :=
  let comps := compChildren S
  if comps.isEmpty then none
  else
    let keySet := dedupInOrder (allPropKeys comps)
    some
      { propertyKeys := stableSortBy strLe keySet
        propertyValues := keySet.map (fun k => (k, valuesFor comps k))
        variants := stableSortBy (fun a b => strLe a.name b.name) comps }

/-- The scanning loop of `Inspector.validate`, with the `seen` set. -/
def validateGo (keys : List String) (seen : List String) :
    List ComponentNode → Option String
  | [] => none
  | v :: vs =>
    let k := variantKey v.props keys
    if k ∈ seen then some ("Duplicate variant properties: " ++ k)
    else validateGo keys (k :: seen) vs

/-- `Inspector.validate`: report the first canonical key that repeats
while scanning the variants in stored order; `null` when none does. -/
def validate (info : VariantInfo) : Option String :=
  validateGo info.propertyKeys [] info.variants

mutual

/-- `Inspector.resetConstraints` on a nested node: set `constraints`
to `MIN`/`MIN` when the field exists, recurse into children. -/
def resetInner : InnerNode → InnerNode
  | .mk w h c ch => .mk w h (c.map (fun _ => minConstraints)) (resetInnerList ch)

def resetInnerList : List InnerNode → List InnerNode
  | [] => []
  | a :: as => resetInner a :: resetInnerList as

end

/-- `Inspector.hasNonZeroRotation`: `Math.abs(node.rotation) > 0.001`.
The raw rotation value is compared; no normalization is applied. -/
def hasNonZeroRotation (c : ComponentNode) : Bool :=
  decide (|c.rotation| > (1 / 1000 : ℚ))

/-- `Inspector.collectRotationIssuesGrouped`: names of the rotation
offenders among the `COMPONENT` children, as a `(set name, names)`
group, or `null` when there are none. -/
def collectRotationIssuesGrouped (S : ComponentSetNode) :
    Option (String × List String) :=
  if (((compChildren S).filter hasNonZeroRotation).map
      (fun c => c.name)).isEmpty then none
  else some (S.name,
    ((compChildren S).filter hasNonZeroRotation).map (fun c => c.name))

/-! ## LayoutService -/

/-- The bucket priority of `LayoutService.sortColorKeys`:
`c[0]?.toLowerCase()` equal to `"n"` gives 0, `"s"` gives 1,
anything else (including the empty string) gives 2. -/
def colorBucket (s : String) : ℕ :=
  match s.data.head?.map Char.toLower with
  | some c => if c = 'n' then 0 else if c = 's' then 1 else 2
  | none => 2

/-- The `sortColorKeys` comparator as a Boolean `≤`:
`pa === pb ? a.localeCompare(b) : pa - pb` is nonpositive. -/
def colorLe (a b : String) : Bool :=
  if colorBucket a < colorBucket b then true
  else if colorBucket b < colorBucket a then false
  else strLe a b

/-- `LayoutService.sortColorKeys`. -/
def sortColorKeys (keys : List String) : List String :=
  stableSortBy colorLe keys

/-- The size axis order of `plan`:
`.sort((a, b) => Number(a) - Number(b))`. -/
def sortSizeKeys (keys : List String) : List String :=
  stableSortBy numLe keys

/-- The style axis order of `plan`: `.sort().reverse()`. -/
def sortStyleKeysDesc (keys : List String) : List String :=
  (stableSortBy strLe keys).reverse

/-- The value of a variant's `Set` property, defaulting to
`"default"` (`v.properties[setProp] ?? "default"`). -/
def setValOf (v : ComponentNode) : String :=
  (propGet v.props "Set").getD "default"

/-- An axis index lookup with the `?? 0` fallback of the source; axis
lists are duplicate-free, so the first index models the JS `Map`
lookup. -/
def axisIdx (axis : List String) (val : String) : ℕ :=
  (axis.findIdx? (fun s => s == val)).getD 0

/-- The body of `plan`'s inner loop: one variant's `(x, y)`. -/
def posOfVariant (styles colors sizes : List String) (baseX : ℚ)
    (v : ComponentNode) : ℚ × ℚ :=
  (baseX + (axisIdx sizes (propGetD v.props "Size") : ℚ) * CONFIG.step
      + CONFIG.padding,
    (axisIdx styles (propGetD v.props "Style") : ℚ)
        * ((colors.length : ℚ) * CONFIG.step)
      + (axisIdx colors (propGetD v.props "Color") : ℚ) * CONFIG.step
      + CONFIG.padding + CONFIG.step / 2 - v.height / 2)

/-- The block loop of `plan`: iterate the set-value blocks, assign each
contained variant its position, advance `baseX` by
`blockW + gapBetweenBlocks` after each block. -/
def planBlocks (pkeys styles colors sizes : List String)
    (variants : List ComponentNode) :
    List String → ℚ → List (String × (ℚ × ℚ)) → List (String × (ℚ × ℚ))
  | [], _, pos => pos
  | g :: gs, baseX, pos =>
    let pos' := (variants.filter (fun v => setValOf v == g)).foldl
      (fun acc v =>
        mapSet acc (variantKey v.props pkeys)
          (posOfVariant styles colors sizes baseX v)) pos
    planBlocks pkeys styles colors sizes variants gs
      (baseX + (sizes.length : ℚ) * CONFIG.step + CONFIG.gapBetweenBlocks) pos'

/-- The style axis of `plan`:
`Array.from(info.propertyValues[styleProp] ?? []).sort().reverse()`. -/
def planStyles (info : VariantInfo) : List String :=
  sortStyleKeysDesc ((mapGet info.propertyValues "Style").getD [])

/-- The color axis of `plan`. -/
def planColors (info : VariantInfo) : List String :=
  sortColorKeys ((mapGet info.propertyValues "Color").getD [])

/-- The size axis of `plan`. -/
def planSizes (info : VariantInfo) : List String :=
  sortSizeKeys ((mapGet info.propertyValues "Size").getD [])

/-- The block iteration order of `plan`:
`Array.from(setGroups.keys()).sort().reverse()` — the distinct `Set`
values in first-occurrence order, sorted, reversed. -/
def planBlockKeys (info : VariantInfo) : List String :=
  (stableSortBy strLe (dedupInOrder (info.variants.map setValOf))).reverse

/-- `LayoutService.plan`: build the three axes (style descending, color
by bucket, size numeric), fail on an empty axis, group the variants by
their `Set` value and emit the coordinate mapping. -/
def plan (info : VariantInfo) : Option (List (String × (ℚ × ℚ))) :=
  if (planSizes info).isEmpty || (planStyles info).isEmpty
      || (planColors info).isEmpty then none
  else
    some (planBlocks info.propertyKeys (planStyles info) (planColors info)
      (planSizes info) info.variants (planBlockKeys info) 0 [])

/-- Phase 1 of `apply` on one child: on a variant (`COMPONENT`), reset
constraints recursively and write the mapped position (`?? 0`); other
children are untouched by this phase. The source iterates
`info.variants`, which are exactly the set's `COMPONENT` children. -/
def placeChild (pkeys : List String) (m : List (String × (ℚ × ℚ))) :
    ChildNode → ChildNode
  | .comp c =>
    let p := mapGet m (variantKey c.props pkeys)
    .comp { c with
      constraints := minConstraints
      inner := resetInnerList c.inner
      x := (p.map Prod.fst).getD 0
      y := (p.map Prod.snd).getD 0 }
  | .other o => .other o

/-- The child reorder comparator of `apply`:
`(a, b) => (a.y === b.y ? a.x - b.x : a.y - b.y)` is nonpositive. -/
def childPosLe (a b : ChildNode) : Bool :=
  decide (a.getY < b.getY ∨ (a.getY = b.getY ∧ a.getX ≤ b.getX))

/-- Least element of a rational list (the `Infinity`-seeded fold of the
source; only ever used on nonempty lists, behind the length guard). -/
def qMinList (l : List ℚ) : ℚ :=
  match l with
  | [] => 0
  | x :: xs => xs.foldl min x

/-- Greatest element of a rational list. -/
def qMaxList (l : List ℚ) : ℚ :=
  match l with
  | [] => 0
  | x :: xs => xs.foldl max x

/-- Translation applied to every child so the bounding box lands at
`(padding, padding)`. -/
def shiftChild (dx dy : ℚ) : ChildNode → ChildNode
  | .comp c => .comp { c with x := c.x - dx, y := c.y - dy }
  | .other o => .other { o with x := o.x - dx, y := o.y - dy }

/-- The `minX` bound of `apply`'s bounding-box pass. -/
def boundsMinX (ch : List ChildNode) : ℚ := qMinList (ch.map ChildNode.getX)

/-- The `minY` bound. -/
def boundsMinY (ch : List ChildNode) : ℚ := qMinList (ch.map ChildNode.getY)

/-- The `maxX` bound (right edges `c.x + c.width`). -/
def boundsMaxX (ch : List ChildNode) : ℚ :=
  qMaxList (ch.map (fun c => c.getX + c.getW))

/-- The `maxY` bound (bottom edges `c.y + c.height`). -/
def boundsMaxY (ch : List ChildNode) : ℚ :=
  qMaxList (ch.map (fun c => c.getY + c.getH))

/-- The placed and re-sequenced children of `apply` (phases 1 and 2). -/
def applyChildren (pkeys : List String) (m : List (String × (ℚ × ℚ)))
    (S : ComponentSetNode) : List ChildNode :=
  stableSortBy childPosLe (S.children.map (placeChild pkeys m))

/-- `LayoutService.apply`: place the variants, re-sequence the children
into row-major order, and — unless the set has no children — translate
everything so the bounding box starts at `(padding, padding)` and
resize the set to the bounding box plus padding on all sides. -/
def applyModel (pkeys : List String) (m : List (String × (ℚ × ℚ)))
    (S : ComponentSetNode) : ComponentSetNode :=
  if (applyChildren pkeys m S).isEmpty then
    { S with children := applyChildren pkeys m S }
  else
    { S with
      children := (applyChildren pkeys m S).map
        (shiftChild (boundsMinX (applyChildren pkeys m S) - CONFIG.padding)
          (boundsMinY (applyChildren pkeys m S) - CONFIG.padding))
      width := boundsMaxX (applyChildren pkeys m S)
        - boundsMinX (applyChildren pkeys m S) + CONFIG.padding * 2
      height := boundsMaxY (applyChildren pkeys m S)
        - boundsMinY (applyChildren pkeys m S) + CONFIG.padding * 2 }

/-! ## The main run -/

/-- One iteration of the main loop (lines 494–501): read, validate,
plan, apply; `none` when the set is skipped. -/
def processSetF (S : ComponentSetNode) : Option ComponentSetNode :=
  match readVariantProperties S with
  | none => none
  | some info =>
    match validate info with
    | some _ => none
    | none =>
      match plan info with
      | none => none
      | some m => some (applyModel info.propertyKeys m S)

/-- The state of a set after its loop iteration: skipped sets are
untouched. -/
def processSet (S : ComponentSetNode) : ComponentSetNode :=
  (processSetF S).getD S

/-- The main loop over the in-scope sets, threading the `offsetX`
accumulator used in auto (whole page) mode for side-by-side placement. -/
def processScope (auto : Bool) : ℚ → List ComponentSetNode → List ComponentSetNode
  | _, [] => []
  | offX, S :: rest =>
    match processSetF S with
    | none => S :: processScope auto offX rest
    | some S1 =>
      if auto then
        let S2 := { S1 with x := offX, y := 0 }
        S2 :: processScope auto (offX + S2.width + CONFIG.gapBetweenSets) rest
      else S1 :: processScope auto offX rest

/-- Number of sets the loop lays out (the `processed` counter). -/
def countProcessed (sets : List ComponentSetNode) : ℕ :=
  (sets.filter (fun S => (processSetF S).isSome)).length

/-- The run scope: the selected `ComponentSet`s if any are selected,
else every set on the page; sorted by name. A page is a list of sets
paired with their selection flag. -/
def pageScope (page : List (ComponentSetNode × Bool)) : List ComponentSetNode :=
  let sel := (page.filter (fun e => e.2)).map (fun e => e.1)
  let chosen := if sel.isEmpty then page.map (fun e => e.1) else sel
  stableSortBy (fun a b => strLe a.name b.name) chosen

/-- Auto mode: nothing is selected. -/
def pageAuto (page : List (ComponentSetNode × Bool)) : Bool :=
  (page.filter (fun e => e.2)).isEmpty

/-- The outcome of a run: the final page and the rotation report (when
one was produced instead of a layout). -/
structure RunResult where
  page : List (ComponentSetNode × Bool)
  report : Option (List (String × List String))
deriving DecidableEq

/-- The main entry point (the async IIFE `run`): abort with no sets;
collect rotation issues over the whole scope and, if any exist, produce
the grouped report and terminate with the page untouched; otherwise run
the per-set loop (continuing over skipped sets), then — in auto mode
with at least one set updated — re-sequence the page to the sorted
scope order. -/
def runModel (page : List (ComponentSetNode × Bool)) : RunResult :=
  if page.isEmpty then ⟨page, none⟩
  else if ((pageScope page).filterMap collectRotationIssuesGrouped).isEmpty then
    (if pageAuto page then
      (if countProcessed (pageScope page) = 0 then ⟨page, none⟩
       else ⟨(processScope true 0 (pageScope page)).map (fun s => (s, false)),
         none⟩)
     else ⟨page.map (fun e => (if e.2 then processSet e.1 else e.1, e.2)), none⟩)
  else ⟨page, some ((pageScope page).filterMap collectRotationIssuesGrouped)⟩

/-! ## Generic facts about the comparators -/

theorem colorLe_iff (a b : String) :
    colorLe a b = true ↔ colorBucket a < colorBucket b ∨
      (colorBucket a = colorBucket b ∧ strLe a b = true) := by
  unfold colorLe
  rcases Nat.lt_trichotomy (colorBucket a) (colorBucket b) with h | h | h
  · simp [h]
  · simp [h, Nat.lt_irrefl]
  · rw [if_neg (Nat.lt_asymm h), if_pos h]
    constructor
    · intro hf
      exact absurd hf (by simp)
    · rintro (h2 | ⟨h2, _⟩)
      · exact absurd h2 (Nat.lt_asymm h)
      · exact absurd h (h2 ▸ Nat.lt_irrefl _)

theorem colorLe_total : LeTotal colorLe := by
  intro a b
  rw [colorLe_iff, colorLe_iff]
  rcases Nat.lt_trichotomy (colorBucket a) (colorBucket b) with h | h | h
  · exact Or.inl (Or.inl h)
  · rcases strLe_total a b with h2 | h2
    · exact Or.inl (Or.inr ⟨h, h2⟩)
    · exact Or.inr (Or.inr ⟨h.symm, h2⟩)
  · exact Or.inr (Or.inl h)

theorem colorLe_trans : LeTrans colorLe := by
  intro a b c hab hbc
  rw [colorLe_iff] at *
  rcases hab with h1 | ⟨h1, h1'⟩ <;> rcases hbc with h2 | ⟨h2, h2'⟩
  · exact Or.inl (Nat.lt_trans h1 h2)
  · exact Or.inl (h2 ▸ h1)
  · exact Or.inl (h1 ▸ h2)
  · exact Or.inr ⟨h1.trans h2, strLe_trans a b c h1' h2'⟩

theorem colorLe_antisymm (a b : String) (h1 : colorLe a b = true)
    (h2 : colorLe b a = true) : a = b := by
  rw [colorLe_iff] at h1 h2
  rcases h1 with h1 | ⟨h1, h1'⟩ <;> rcases h2 with h2 | ⟨h2, h2'⟩
  · exact absurd h2 (Nat.lt_asymm h1)
  · exact absurd h1 (h2 ▸ Nat.lt_irrefl _)
  · exact absurd h2 (h1 ▸ Nat.lt_irrefl _)
  · exact strLe_antisymm a b h1' h2'

/-! ## Concrete scene-building helpers for the scenario claims -/

/-- A variant component with the given name, properties, height and
rotation, zero position, width 52 and no nested layers. -/
def mkVariant (nm : String) (props : List (String × String))
    (h : ℚ := 52) (rot : ℚ := 0) : ComponentNode :=
  { name := nm, x := 0, y := 0, width := 52, height := h, rotation := rot,
    props := props, constraints := ⟨"SCALE", "SCALE"⟩, inner := [] }

/-! ## Claim C2 -/

/-- The four-variant set of the end-to-end scenario: one `Set` value,
one `Style`, two `Color`s and two `Size`s. The variant height equals
`CONFIG.step`, so the in-cell vertical centering of `plan`
(`cellTop + step/2 - height/2`) is the identity and the returned
coordinates are exactly the pre-centering cell corners. -/
def demoSet2x2 : ComponentSetNode :=
  { name := "icons", x := 0, y := 0, width := 100, height := 100,
    children := [
      .comp (mkVariant "a16n" [("Set","a"),("Style","filled"),("Color","none"),("Size","16")]),
      .comp (mkVariant "a16s" [("Set","a"),("Style","filled"),("Color","solid"),("Size","16")]),
      .comp (mkVariant "a24n" [("Set","a"),("Style","filled"),("Color","none"),("Size","24")]),
      .comp (mkVariant "a24s" [("Set","a"),("Style","filled"),("Color","solid"),("Size","24")]) ] }

/-- C2: with `cellSize = 52` and `padding = 20` (the CONFIG values),
`plan` on the four-variant set `{Set:"a", Style:"filled"} ×
{Color:"none","solid"} × {Size:"16","24"}` returns four distinct,
non-overlapping coordinates forming a 2×2 grid: x pitch and y pitch are
exactly 52, the minimum coordinate is `(20, 20)`, and each x value
follows `x = baseX + sizeIndex * cellSize + padding` with `baseX = 0`,
`sizeIndex ∈ {0, 1}`. -/
theorem c2_end_to_end_grid :
    CONFIG.step = 52 ∧ CONFIG.padding = 20 ∧
    ((readVariantProperties demoSet2x2).bind plan) = some
      [("none|a|16|filled", (20, 20)),
       ("solid|a|16|filled", (20, 72)),
       ("none|a|24|filled", (72, 20)),
       ("solid|a|24|filled", (72, 72))] ∧
    ([((20 : ℚ), (20 : ℚ)), (20, 72), (72, 20), (72, 72)]).Nodup ∧
    (72 - 20 : ℚ) = CONFIG.step ∧
    (20 : ℚ) = 0 + (0 : ℚ) * CONFIG.step + CONFIG.padding ∧
    (72 : ℚ) = 0 + (1 : ℚ) * CONFIG.step + CONFIG.padding := by
  refine ⟨rfl, rfl, by with_unfolding_all decide, by with_unfolding_all decide,
    by norm_num [CONFIG.step], ?_, ?_⟩
  · norm_num [CONFIG.padding]
  · norm_num [CONFIG.step, CONFIG.padding]

/-! ## Claim C3 -/

/-- C3: the size axis built from `{"16","8","24"}` is
`["8","16","24"]` (numeric ascending, not lexicographic), the color
axis built from `{"Yellow","None","Solid","Blue"}` is
`["None","Solid","Blue","Yellow"]`, and in general `sortColorKeys`
returns a permutation of its input that is sorted by the three-bucket
priority (first letter n/N, then s/S, then the rest) with lexicographic
ascending order inside each bucket. -/
theorem c3_axis_ordering :
    sortSizeKeys ["16", "8", "24"] = ["8", "16", "24"] ∧
    sortColorKeys ["Yellow", "None", "Solid", "Blue"]
      = ["None", "Solid", "Blue", "Yellow"] ∧
    (∀ l : List String, List.Perm (sortColorKeys l) l) ∧
    (∀ l : List String, (sortColorKeys l).Pairwise (fun a b =>
      colorBucket a < colorBucket b ∨
        (colorBucket a = colorBucket b ∧ strLe a b = true))) := by
  refine ⟨by with_unfolding_all decide, by with_unfolding_all decide, ?_, ?_⟩
  · intro l
    exact stableSortBy_perm colorLe l
  · intro l
    have := stableSortBy_pairwise colorLe colorLe_total colorLe_trans l
    refine this.imp ?_
    intro a b h
    exact (colorLe_iff a b).1 h

/-! ## Claim C4 -/

/-- Modelled from the spec: the rotation value "normalized into
[0, 360)" — the representative of `r` modulo 360 lying in `[0, 360)`.
This normalization appears only in the spec's wording; the source
compares the raw rotation. -/
def specRotationNormalized (r : ℚ) : ℚ := r - 360 * ⌊r / 360⌋

/-- Modelled from the spec: "a variant is non-conforming if its
rotation, normalized into [0, 360), has absolute value greater than a
small epsilon (0.001 degrees) from zero". -/
def specNonConformingRotation (r : ℚ) : Prop :=
  |specRotationNormalized r| > 1 / 1000

/-- A variant whose rotation is exactly 360 degrees. -/
def rot360Variant : ComponentNode := mkVariant "rot360" [("Set", "a")] 52 360

/-- C4 counterexample: at rotation exactly 360 degrees the code
(`Math.abs(node.rotation) > 0.001`, no normalization) classifies the
variant as non-conforming, while the claim's criterion (normalize into
[0, 360), then compare with 0.001) classifies it as conforming — so the
claimed equivalence fails at rotation 360. -/
theorem c4_rotation_counterexample :
    hasNonZeroRotation rot360Variant = true ∧
    specRotationNormalized rot360Variant.rotation = 0 ∧
    ¬ specNonConformingRotation rot360Variant.rotation := by
  refine ⟨by with_unfolding_all decide, ?_, ?_⟩
  · show (360 : ℚ) - 360 * ⌊(360 : ℚ) / 360⌋ = 0
    norm_num
  · show ¬ (|(360 : ℚ) - 360 * ⌊(360 : ℚ) / 360⌋| > 1 / 1000)
    norm_num

/-- C4 amended: the rotation check compares the raw rotation value with
no normalization — a variant is classified non-conforming exactly when
`|rotation| > 0.001`; in particular a rotation of exactly 360 degrees
is non-conforming. At the grouping level, a variant-set produces no
rotation group exactly when every variant's raw rotation satisfies
`|rotation| ≤ 0.001`. -/
theorem c4_rotation_check_amended :
    (∀ c : ComponentNode, hasNonZeroRotation c = true ↔ |c.rotation| > 1 / 1000) ∧
    hasNonZeroRotation rot360Variant = true ∧
    (∀ S : ComponentSetNode, collectRotationIssuesGrouped S = none ↔
      ∀ c ∈ compChildren S, |c.rotation| ≤ 1 / 1000) := by
  refine ⟨?_, by with_unfolding_all decide, ?_⟩
  · intro c
    simp [hasNonZeroRotation]
  · intro S
    unfold collectRotationIssuesGrouped
    show (if (((compChildren S).filter hasNonZeroRotation).map
        (fun c => c.name)).isEmpty = true then none
      else some (S.name, ((compChildren S).filter hasNonZeroRotation).map
        (fun c => c.name))) = none ↔ _
    split
    · rename_i hvs
      simp only [List.isEmpty_iff, List.map_eq_nil_iff,
        List.filter_eq_nil_iff] at hvs
      refine iff_of_true rfl ?_
      intro c hc
      have := hvs c hc
      simpa [hasNonZeroRotation, not_lt] using this
    · rename_i hvs
      simp only [List.isEmpty_iff, List.map_eq_nil_iff,
        List.filter_eq_nil_iff] at hvs
      push_neg at hvs
      obtain ⟨c, hc, hrot⟩ := hvs
      refine iff_of_false (by simp) ?_
      intro hall
      have := hall c hc
      simp only [hasNonZeroRotation, decide_eq_true_eq, not_not] at hrot
      exact absurd this (not_le.2 hrot)

/-! ## Claim C9 -/

/-- The attribute mapping of the C9 counterexample: two keys share the
value `"x"` while a third key holds `"y"`. -/
def c9props : List (String × String) := [("A", "x"), ("B", "y"), ("C", "x")]

/-- C9 counterexample: permuting the ordered key list
`["A","B","C"]` to `["C","B","A"]` leaves the built key unchanged
(`"x|y|x"` both ways) although the mapping's values for those keys are
not all identical — the transposed keys simply hold equal values. -/
theorem c9_buildkey_counterexample :
    variantKey c9props ["A", "B", "C"] = variantKey c9props ["C", "B", "A"] ∧
    List.Perm ["C", "B", "A"] ["A", "B", "C"] ∧
    ["C", "B", "A"] ≠ ["A", "B", "C"] ∧
    propGetD c9props "A" ≠ propGetD c9props "B" := by
  exact ⟨by with_unfolding_all decide, by decide, by decide, by decide⟩

/-- Concatenation of pipe-free character-list fields with a `'|'`
separator recovers the fields: heads agree. -/
theorem pipe_split_inj (x : List Char) :
    ∀ (y u v : List Char), '|' ∉ x → '|' ∉ y →
    x ++ '|' :: u = y ++ '|' :: v → x = y ∧ u = v := by
  induction x with
  | nil =>
    intro y u v _ hy h
    cases y with
    | nil => simpa using h
    | cons c y' =>
      simp only [List.nil_append, List.cons_append, List.cons.injEq] at h
      exact absurd (h.1 ▸ List.mem_cons_self c y') (h.1 ▸ hy)
  | cons a x' ih =>
    intro y u v hx hy h
    cases y with
    | nil =>
      simp only [List.cons_append, List.nil_append, List.cons.injEq] at h
      exact absurd (h.1 ▸ List.mem_cons_self a x') (h.1 ▸ hx)
    | cons b y' =>
      simp only [List.cons_append, List.cons.injEq] at h
      obtain ⟨heq, h2⟩ := h
      subst heq
      have := ih y' u v (fun hm => hx (List.mem_cons_of_mem a hm))
        (fun hm => hy (List.mem_cons_of_mem a hm)) h2
      exact ⟨by rw [this.1], this.2⟩

/-- Character-list version of `joinPipe`. -/
def joinData : List (List Char) → List Char
  | [] => []
  | [x] => x
  | x :: rest => x ++ '|' :: joinData rest

theorem joinPipe_data : ∀ xs : List String,
    (joinPipe xs).data = joinData (xs.map String.data)
  | [] => rfl
  | [_] => rfl
  | x :: y :: rest => by
    show (x ++ "|" ++ joinPipe (y :: rest)).data
      = x.data ++ '|' :: joinData ((y :: rest).map String.data)
    rw [String.data_append, String.data_append, joinPipe_data (y :: rest)]
    have hp : "|".data = ['|'] := rfl
    rw [hp, List.append_assoc]
    rfl

/-- Injectivity of pipe-joining for equal-length pipe-free field
lists. -/
theorem joinData_inj : ∀ xs ys : List (List Char),
    xs.length = ys.length →
    (∀ x ∈ xs, '|' ∉ x) → (∀ y ∈ ys, '|' ∉ y) →
    joinData xs = joinData ys → xs = ys
  | [], [], _, _, _, _ => rfl
  | [], _ :: _, hlen, _, _, _ => by simp at hlen
  | _ :: _, [], hlen, _, _, _ => by simp at hlen
  | [x], [y], _, _, _, h => by
    simpa [joinData] using h
  | [_], _ :: _ :: _, hlen, _, _, _ => by simp at hlen
  | _ :: _ :: _, [_], hlen, _, _, _ => by simp at hlen
  | x :: x2 :: xs, y :: y2 :: ys, hlen, hx, hy, h => by
    have hsplit := pipe_split_inj x y (joinData (x2 :: xs)) (joinData (y2 :: ys))
      (hx x (by simp)) (hy y (by simp)) h
    have htail := joinData_inj (x2 :: xs) (y2 :: ys) (by simpa using hlen)
      (fun z hz => hx z (List.mem_cons_of_mem x hz))
      (fun z hz => hy z (List.mem_cons_of_mem y hz)) hsplit.2
    rw [hsplit.1, htail]

/-- C9 amended: `buildKey` is deterministic — it depends only on the
sequence of values selected by the ordered key list — and, whenever the
selected values contain no `'|'` separator character, two key orders of
equal length (in particular, a key order and any permutation of it)
produce the same key exactly when they select the same value sequence;
permuting the key list therefore changes the key unless the permutation
fixes the value sequence (for example when all values are identical). -/
theorem c9_buildkey_amended :
    (∀ (props props' : List (String × String)) (keys : List String),
      keys.map (propGetD props) = keys.map (propGetD props') →
      variantKey props keys = variantKey props' keys) ∧
    (∀ (props : List (String × String)) (keys1 keys2 : List String),
      keys1.length = keys2.length →
      (∀ k ∈ keys1, '|' ∉ (propGetD props k).data) →
      (∀ k ∈ keys2, '|' ∉ (propGetD props k).data) →
      (variantKey props keys1 = variantKey props keys2 ↔
        keys1.map (propGetD props) = keys2.map (propGetD props))) := by
  constructor
  · intro props props' keys h
    unfold variantKey
    rw [h]
  · intro props keys1 keys2 hlen h1 h2
    constructor
    · intro h
      unfold variantKey at h
      have hd : (joinPipe (keys1.map (propGetD props))).data
          = (joinPipe (keys2.map (propGetD props))).data := by rw [h]
      rw [joinPipe_data, joinPipe_data] at hd
      have := joinData_inj _ _ (by simpa using hlen)
        (by
          intro x hx
          simp only [List.map_map, List.mem_map] at hx
          obtain ⟨k, hk, rfl⟩ := hx
          exact h1 k hk)
        (by
          intro x hx
          simp only [List.map_map, List.mem_map] at hx
          obtain ⟨k, hk, rfl⟩ := hx
          exact h2 k hk) hd
      have hmaps : (keys1.map (propGetD props)).map String.data
          = (keys2.map (propGetD props)).map String.data := by
        simpa [List.map_map] using this
      exact List.map_injective_iff.2 (fun a b hab => string_data_inj hab) hmaps
    · intro h
      unfold variantKey
      rw [h]

/-! ## Bounding-box lemmas and claim C8 -/

theorem foldl_min_le_init (x : ℚ) (l : List ℚ) : l.foldl min x ≤ x := by
  induction l generalizing x with
  | nil => simp
  | cons y ys ih =>
    simp only [List.foldl_cons]
    exact le_trans (ih (min x y)) (min_le_left x y)

theorem foldl_min_le (x : ℚ) (l : List ℚ) (y : ℚ) (hy : y ∈ l) :
    l.foldl min x ≤ y := by
  induction l generalizing x with
  | nil => simp at hy
  | cons z zs ih =>
    simp only [List.foldl_cons]
    rcases List.mem_cons.1 hy with rfl | hy
    · exact le_trans (foldl_min_le_init (min x y) zs) (min_le_right x y)
    · exact ih (min x z) hy

theorem foldl_min_mem (x : ℚ) (l : List ℚ) : l.foldl min x ∈ x :: l := by
  induction l generalizing x with
  | nil => simp
  | cons y ys ih =>
    simp only [List.foldl_cons]
    rcases List.mem_cons.1 (ih (min x y)) with h | h
    · rw [h]
      rcases min_cases x y with ⟨h2, _⟩ | ⟨h2, _⟩
      · rw [h2]
        exact List.mem_cons_self x (y :: ys)
      · rw [h2]
        exact List.mem_cons_of_mem x (List.mem_cons_self y ys)
    · exact List.mem_cons_of_mem x (List.mem_cons_of_mem y h)

theorem foldl_max_init_le (x : ℚ) (l : List ℚ) : x ≤ l.foldl max x := by
  induction l generalizing x with
  | nil => simp
  | cons y ys ih =>
    simp only [List.foldl_cons]
    exact le_trans (le_max_left x y) (ih (max x y))

theorem le_foldl_max (x : ℚ) (l : List ℚ) (y : ℚ) (hy : y ∈ l) :
    y ≤ l.foldl max x := by
  induction l generalizing x with
  | nil => simp at hy
  | cons z zs ih =>
    simp only [List.foldl_cons]
    rcases List.mem_cons.1 hy with rfl | hy
    · exact le_trans (le_max_right x y) (foldl_max_init_le (max x y) zs)
    · exact ih (max x z) hy

theorem foldl_max_mem (x : ℚ) (l : List ℚ) : l.foldl max x ∈ x :: l := by
  induction l generalizing x with
  | nil => simp
  | cons y ys ih =>
    simp only [List.foldl_cons]
    rcases List.mem_cons.1 (ih (max x y)) with h | h
    · rw [h]
      rcases max_cases x y with ⟨h2, _⟩ | ⟨h2, _⟩
      · rw [h2]
        exact List.mem_cons_self x (y :: ys)
      · rw [h2]
        exact List.mem_cons_of_mem x (List.mem_cons_self y ys)
    · exact List.mem_cons_of_mem x (List.mem_cons_of_mem y h)

theorem qMinList_mem {l : List ℚ} (h : l ≠ []) : qMinList l ∈ l := by
  cases l with
  | nil => exact absurd rfl h
  | cons x xs => exact foldl_min_mem x xs

theorem qMinList_le {l : List ℚ} (h : l ≠ []) (y : ℚ) (hy : y ∈ l) :
    qMinList l ≤ y := by
  cases l with
  | nil => exact absurd rfl h
  | cons x xs =>
    rcases List.mem_cons.1 hy with rfl | hy
    · exact foldl_min_le_init y xs
    · exact foldl_min_le x xs y hy

theorem qMaxList_mem {l : List ℚ} (h : l ≠ []) : qMaxList l ∈ l := by
  cases l with
  | nil => exact absurd rfl h
  | cons x xs => exact foldl_max_mem x xs

theorem le_qMaxList {l : List ℚ} (h : l ≠ []) (y : ℚ) (hy : y ∈ l) :
    y ≤ qMaxList l := by
  cases l with
  | nil => exact absurd rfl h
  | cons x xs =>
    rcases List.mem_cons.1 hy with rfl | hy
    · exact foldl_max_init_le y xs
    · exact le_foldl_max x xs y hy

/-- The least element is determined by membership and the lower-bound
property, so `qMinList` only depends on the list up to permutation. -/
theorem qMinList_unique {l : List ℚ} (h : l ≠ []) (v : ℚ) (hv : v ∈ l)
    (hlb : ∀ y ∈ l, v ≤ y) : qMinList l = v :=
  le_antisymm (qMinList_le h v hv) (hlb _ (qMinList_mem h))

theorem qMaxList_unique {l : List ℚ} (h : l ≠ []) (v : ℚ) (hv : v ∈ l)
    (hub : ∀ y ∈ l, y ≤ v) : qMaxList l = v :=
  le_antisymm (hub _ (qMaxList_mem h)) (le_qMaxList h v hv)

theorem shiftChild_getX (dx dy : ℚ) (c : ChildNode) :
    (shiftChild dx dy c).getX = c.getX - dx := by
  cases c <;> rfl

theorem shiftChild_getY (dx dy : ℚ) (c : ChildNode) :
    (shiftChild dx dy c).getY = c.getY - dy := by
  cases c <;> rfl

theorem shiftChild_getW (dx dy : ℚ) (c : ChildNode) :
    (shiftChild dx dy c).getW = c.getW := by
  cases c <;> rfl

theorem shiftChild_getH (dx dy : ℚ) (c : ChildNode) :
    (shiftChild dx dy c).getH = c.getH := by
  cases c <;> rfl

theorem applyChildren_length (pkeys : List String)
    (m : List (String × (ℚ × ℚ))) (S : ComponentSetNode) :
    (applyChildren pkeys m S).length = S.children.length := by
  unfold applyChildren
  rw [(stableSortBy_perm childPosLe _).length_eq, List.length_map]

theorem applyChildren_ne_nil (pkeys : List String)
    (m : List (String × (ℚ × ℚ))) (S : ComponentSetNode)
    (h : S.children ≠ []) : applyChildren pkeys m S ≠ [] := by
  intro hnil
  have := applyChildren_length pkeys m S
  rw [hnil] at this
  exact h (List.eq_nil_of_length_eq_zero this.symm)

/-- Reduction of `applyModel` on a set with children. -/
theorem applyModel_eq (pkeys : List String) (m : List (String × (ℚ × ℚ)))
    (S : ComponentSetNode) (h : S.children ≠ []) :
    applyModel pkeys m S =
      { S with
        children := (applyChildren pkeys m S).map
          (shiftChild (boundsMinX (applyChildren pkeys m S) - CONFIG.padding)
            (boundsMinY (applyChildren pkeys m S) - CONFIG.padding))
        width := boundsMaxX (applyChildren pkeys m S)
          - boundsMinX (applyChildren pkeys m S) + CONFIG.padding * 2
        height := boundsMaxY (applyChildren pkeys m S)
          - boundsMinY (applyChildren pkeys m S) + CONFIG.padding * 2 } := by
  unfold applyModel
  rw [if_neg]
  simp only [List.isEmpty_iff]
  exact applyChildren_ne_nil pkeys m S h

theorem map_shift_ne_nil {dx dy : ℚ} {ch : List ChildNode} (h : ch ≠ []) :
    ch.map (shiftChild dx dy) ≠ [] := by
  intro hnil
  exact h (List.map_eq_nil_iff.1 hnil)

theorem boundsMinX_shift (ch : List ChildNode) (h : ch ≠ []) (dx dy : ℚ) :
    boundsMinX (ch.map (shiftChild dx dy)) = boundsMinX ch - dx := by
  unfold boundsMinX
  refine qMinList_unique (by simpa using h) _ ?_ ?_
  · have := qMinList_mem (l := ch.map ChildNode.getX) (by simpa using h)
    rcases List.mem_map.1 this with ⟨c, hc, hcx⟩
    refine List.mem_map.2 ⟨shiftChild dx dy c, List.mem_map_of_mem _ hc, ?_⟩
    rw [shiftChild_getX, hcx]
  · intro y hy
    rcases List.mem_map.1 hy with ⟨c', hc', rfl⟩
    rcases List.mem_map.1 hc' with ⟨c, hc, rfl⟩
    rw [shiftChild_getX]
    have := qMinList_le (l := ch.map ChildNode.getX) (by simpa using h)
      c.getX (List.mem_map_of_mem _ hc)
    linarith

theorem boundsMinY_shift (ch : List ChildNode) (h : ch ≠ []) (dx dy : ℚ) :
    boundsMinY (ch.map (shiftChild dx dy)) = boundsMinY ch - dy := by
  unfold boundsMinY
  refine qMinList_unique (by simpa using h) _ ?_ ?_
  · have := qMinList_mem (l := ch.map ChildNode.getY) (by simpa using h)
    rcases List.mem_map.1 this with ⟨c, hc, hcy⟩
    refine List.mem_map.2 ⟨shiftChild dx dy c, List.mem_map_of_mem _ hc, ?_⟩
    rw [shiftChild_getY, hcy]
  · intro y hy
    rcases List.mem_map.1 hy with ⟨c', hc', rfl⟩
    rcases List.mem_map.1 hc' with ⟨c, hc, rfl⟩
    rw [shiftChild_getY]
    have := qMinList_le (l := ch.map ChildNode.getY) (by simpa using h)
      c.getY (List.mem_map_of_mem _ hc)
    linarith

theorem boundsMaxX_shift (ch : List ChildNode) (h : ch ≠ []) (dx dy : ℚ) :
    boundsMaxX (ch.map (shiftChild dx dy)) = boundsMaxX ch - dx := by
  unfold boundsMaxX
  refine qMaxList_unique (by simpa using h) _ ?_ ?_
  · have := qMaxList_mem (l := ch.map (fun c => c.getX + c.getW)) (by simpa using h)
    rcases List.mem_map.1 this with ⟨c, hc, hcx⟩
    refine List.mem_map.2 ⟨shiftChild dx dy c, List.mem_map_of_mem _ hc, ?_⟩
    rw [shiftChild_getX, shiftChild_getW]
    linarith [hcx]
  · intro y hy
    rcases List.mem_map.1 hy with ⟨c', hc', rfl⟩
    rcases List.mem_map.1 hc' with ⟨c, hc, rfl⟩
    rw [shiftChild_getX, shiftChild_getW]
    have := le_qMaxList (l := ch.map (fun c => c.getX + c.getW)) (by simpa using h)
      (c.getX + c.getW) (List.mem_map_of_mem _ hc)
    linarith

theorem boundsMaxY_shift (ch : List ChildNode) (h : ch ≠ []) (dx dy : ℚ) :
    boundsMaxY (ch.map (shiftChild dx dy)) = boundsMaxY ch - dy := by
  unfold boundsMaxY
  refine qMaxList_unique (by simpa using h) _ ?_ ?_
  · have := qMaxList_mem (l := ch.map (fun c => c.getY + c.getH)) (by simpa using h)
    rcases List.mem_map.1 this with ⟨c, hc, hcy⟩
    refine List.mem_map.2 ⟨shiftChild dx dy c, List.mem_map_of_mem _ hc, ?_⟩
    rw [shiftChild_getY, shiftChild_getH]
    linarith [hcy]
  · intro y hy
    rcases List.mem_map.1 hy with ⟨c', hc', rfl⟩
    rcases List.mem_map.1 hc' with ⟨c, hc, rfl⟩
    rw [shiftChild_getY, shiftChild_getH]
    have := le_qMaxList (l := ch.map (fun c => c.getY + c.getH)) (by simpa using h)
      (c.getY + c.getH) (List.mem_map_of_mem _ hc)
    linarith

/-- C8: after `apply` on a set with at least one child, the set's width
is `(max child right edge − min child left edge) + 2·padding` and its
height the analogue, and children touch all four padding boundaries:
some child sits at `x = padding`, some at `y = padding`, some child's
right edge is at `width − padding` and some child's bottom edge at
`height − padding` (equivalently, the minimum child x and y equal the
padding and the maximum right/bottom edges equal width/height minus
padding). -/
theorem c8_bounding_box (pkeys : List String) (m : List (String × (ℚ × ℚ)))
    (S : ComponentSetNode) (h : S.children ≠ []) :
    (applyModel pkeys m S).width =
      boundsMaxX (applyModel pkeys m S).children
        - boundsMinX (applyModel pkeys m S).children + 2 * CONFIG.padding ∧
    (applyModel pkeys m S).height =
      boundsMaxY (applyModel pkeys m S).children
        - boundsMinY (applyModel pkeys m S).children + 2 * CONFIG.padding ∧
    boundsMinX (applyModel pkeys m S).children = CONFIG.padding ∧
    boundsMinY (applyModel pkeys m S).children = CONFIG.padding ∧
    (∃ c ∈ (applyModel pkeys m S).children, c.getX = CONFIG.padding) ∧
    (∃ c ∈ (applyModel pkeys m S).children, c.getY = CONFIG.padding) ∧
    (∃ c ∈ (applyModel pkeys m S).children,
      c.getX + c.getW = (applyModel pkeys m S).width - CONFIG.padding) ∧
    (∃ c ∈ (applyModel pkeys m S).children,
      c.getY + c.getH = (applyModel pkeys m S).height - CONFIG.padding) := by
  have hne := applyChildren_ne_nil pkeys m S h
  rw [applyModel_eq pkeys m S h]
  simp only
  rw [boundsMinX_shift _ hne, boundsMinY_shift _ hne,
    boundsMaxX_shift _ hne, boundsMaxY_shift _ hne]
  refine ⟨by ring, by ring, by ring, by ring, ?_, ?_, ?_, ?_⟩
  · have hm := qMinList_mem (l := (applyChildren pkeys m S).map ChildNode.getX)
      (by simpa using hne)
    rcases List.mem_map.1 hm with ⟨c, hc, hcx⟩
    refine ⟨shiftChild (boundsMinX (applyChildren pkeys m S) - CONFIG.padding)
      (boundsMinY (applyChildren pkeys m S) - CONFIG.padding) c,
      List.mem_map_of_mem _ hc, ?_⟩
    rw [shiftChild_getX]
    unfold boundsMinX
    rw [hcx]
    ring
  · have hm := qMinList_mem (l := (applyChildren pkeys m S).map ChildNode.getY)
      (by simpa using hne)
    rcases List.mem_map.1 hm with ⟨c, hc, hcy⟩
    refine ⟨shiftChild (boundsMinX (applyChildren pkeys m S) - CONFIG.padding)
      (boundsMinY (applyChildren pkeys m S) - CONFIG.padding) c,
      List.mem_map_of_mem _ hc, ?_⟩
    rw [shiftChild_getY]
    unfold boundsMinY
    rw [hcy]
    ring
  · have hm := qMaxList_mem
      (l := (applyChildren pkeys m S).map (fun c => c.getX + c.getW))
      (by simpa using hne)
    rcases List.mem_map.1 hm with ⟨c, hc, hcx⟩
    refine ⟨shiftChild (boundsMinX (applyChildren pkeys m S) - CONFIG.padding)
      (boundsMinY (applyChildren pkeys m S) - CONFIG.padding) c,
      List.mem_map_of_mem _ hc, ?_⟩
    rw [shiftChild_getX, shiftChild_getW]
    unfold boundsMaxX
    rw [← hcx]
    ring
  · have hm := qMaxList_mem
      (l := (applyChildren pkeys m S).map (fun c => c.getY + c.getH))
      (by simpa using hne)
    rcases List.mem_map.1 hm with ⟨c, hc, hcy⟩
    refine ⟨shiftChild (boundsMinX (applyChildren pkeys m S) - CONFIG.padding)
      (boundsMinY (applyChildren pkeys m S) - CONFIG.padding) c,
      List.mem_map_of_mem _ hc, ?_⟩
    rw [shiftChild_getY, shiftChild_getH]
    unfold boundsMaxY
    rw [← hcy]
    ring

/-- A one-child set used to witness the bounding-box theorem. -/
def c8set : ComponentSetNode :=
  { name := "w8", x := 0, y := 0, width := 7, height := 9,
    children := [.other { name := "o", x := 3, y := 4, width := 10, height := 5 }] }

/-- Witness for C8 at a concrete one-child set: the hypothesis holds and
the concluded width formula and padding-touching minimum evaluate as
stated (the child is 10 wide, so the set becomes `10 + 2·20 = 50`
wide). -/
theorem c8_bounding_box_witness :
    c8set.children ≠ [] ∧
    (applyModel [] [] c8set).width =
      boundsMaxX (applyModel [] [] c8set).children
        - boundsMinX (applyModel [] [] c8set).children + 2 * CONFIG.padding ∧
    boundsMinX (applyModel [] [] c8set).children = CONFIG.padding ∧
    (applyModel [] [] c8set).width = 50 := by
  have h : c8set.children ≠ [] := by decide
  have hmain := c8_bounding_box [] [] c8set h
  exact ⟨h, hmain.1, hmain.2.2.1, by with_unfolding_all decide⟩

/-! ## Claim C5 -/

theorem validateGo_none_iff (keys : List String) :
    ∀ (vs : List ComponentNode) (seen : List String),
    validateGo keys seen vs = none ↔
      (vs.map (fun v => variantKey v.props keys)).Nodup ∧
      ∀ k ∈ vs.map (fun v => variantKey v.props keys), k ∉ seen
  | [], seen => by simp [validateGo]
  | v :: vs, seen => by
    simp only [validateGo]
    split
    · rename_i hv
      constructor
      · intro h
        exact absurd h (by simp)
      · intro hcon
        exact absurd hv (hcon.2 _ (by simp))
    · rename_i hv
      rw [validateGo_none_iff keys vs (variantKey v.props keys :: seen)]
      constructor
      · intro hpair
        obtain ⟨hnd, hns⟩ := hpair
        refine ⟨?_, ?_⟩
        · rw [List.map_cons, List.nodup_cons]
          refine ⟨?_, hnd⟩
          intro hmem
          exact (hns _ hmem) (by simp)
        · intro k hk
          rw [List.map_cons, List.mem_cons] at hk
          rcases hk with rfl | hk
          · exact hv
          · intro hkseen
            exact (hns k hk) (by simp [hkseen])
      · intro hpair
        obtain ⟨hnd, hns⟩ := hpair
        rw [List.map_cons, List.nodup_cons] at hnd
        refine ⟨hnd.2, ?_⟩
        intro k hk hkin
        rcases List.mem_cons.1 hkin with rfl | hkseen
        · exact hnd.1 hk
        · refine (hns k ?_) hkseen
          rw [List.map_cons]
          exact List.mem_cons_of_mem _ hk

theorem validateGo_first_dup (keys : List String) (v : ComponentNode)
    (post : List ComponentNode) :
    ∀ (pre : List ComponentNode) (seen : List String),
    (pre.map (fun w => variantKey w.props keys)).Nodup →
    (∀ k ∈ pre.map (fun w => variantKey w.props keys), k ∉ seen) →
    (variantKey v.props keys ∈ seen ∨
      variantKey v.props keys ∈ pre.map (fun w => variantKey w.props keys)) →
    validateGo keys seen (pre ++ v :: post) =
      some ("Duplicate variant properties: " ++ variantKey v.props keys)
  | [], seen => by
    intro _ _ hv
    rcases hv with hv | hv
    · simp [validateGo, hv]
    · simp at hv
  | p :: pre, seen => by
    intro hnd hdisj hv
    have hpseen : variantKey p.props keys ∉ seen :=
      hdisj _ (by simp)
    simp only [List.cons_append, validateGo, if_neg hpseen]
    refine validateGo_first_dup keys v post pre
      (variantKey p.props keys :: seen)
      ((List.nodup_cons.1 (by simpa using hnd)).2) ?_ ?_
    · intro k hk hkin
      rcases List.mem_cons.1 hkin with heq | hkseen
      · exact (List.nodup_cons.1 (by simpa using hnd)).1 (heq ▸ hk)
      · exact hdisj k (by simp [hk]) hkseen
    · rcases hv with hv | hv
      · exact Or.inl (by simp [hv])
      · rw [List.map_cons, List.mem_cons] at hv
        rcases hv with heq | hmem
        · exact Or.inl (by simp [heq])
        · exact Or.inr hmem

theorem processScope_skip :
    ∀ (auto : Bool) (sets : List ComponentSetNode) (offX : ℚ) (i : ℕ)
      (S : ComponentSetNode),
    sets.get? i = some S → processSetF S = none →
    (processScope auto offX sets).get? i = some S
  | _, [], _, i, S => by intro h _; simp at h
  | auto, T :: rest, offX, 0, S => by
    intro h hskip
    simp only [List.get?] at h
    obtain rfl : T = S := by injection h
    simp [processScope, hskip]
  | auto, T :: rest, offX, i + 1, S => by
    intro h hskip
    simp only [List.get?] at h
    simp only [processScope]
    rcases hT : processSetF T with _ | T1
    · simpa using processScope_skip auto rest offX i S h hskip
    · cases auto with
      | false => simpa using processScope_skip false rest offX i S h hskip
      | true =>
        simpa using processScope_skip true rest
          (offX + T1.width + CONFIG.gapBetweenSets) i S h hskip

theorem processScope_processed :
    ∀ (auto : Bool) (sets : List ComponentSetNode) (offX : ℚ) (j : ℕ)
      (S S1 : ComponentSetNode),
    sets.get? j = some S → processSetF S = some S1 →
    ∃ off2, (processScope auto offX sets).get? j =
      some (if auto then { S1 with x := off2, y := 0 } else S1)
  | _, [], _, j, S, S1 => by intro h _; simp at h
  | auto, T :: rest, offX, 0, S, S1 => by
    intro h hproc
    simp only [List.get?] at h
    obtain rfl : T = S := by injection h
    refine ⟨offX, ?_⟩
    cases auto with
    | false => simp [processScope, hproc]
    | true => simp [processScope, hproc]
  | auto, T :: rest, offX, j + 1, S, S1 => by
    intro h hproc
    simp only [List.get?] at h
    simp only [processScope]
    rcases hT : processSetF T with _ | T1
    · simpa using processScope_processed auto rest offX j S S1 h hproc
    · cases auto with
      | false => simpa using processScope_processed false rest offX j S S1 h hproc
      | true =>
        simpa using processScope_processed true rest
          (offX + T1.width + CONFIG.gapBetweenSets) j S S1 h hproc

/-- C5: duplicate detection and per-set skipping. (1) `validate`
returns `null` exactly when the canonical keys (built over the full
`propertyKeys` list) of the variants, in stored order, are pairwise
distinct; (2) when a first repeat exists — the variants split as
`pre ++ v :: post` with `pre`'s keys distinct and `v`'s key among
them — `validate` names exactly `v`'s key (the first key to repeat);
(3) a variant-set whose validation fails is skipped by the main loop;
(4) a skipped set comes out of the run loop untouched, whatever its
position and whatever the other sets are; and (5) every other set whose
own pipeline succeeds is still laid out by the same loop (in auto mode
additionally repositioned to the running offset). -/
theorem c5_duplicate_detection_and_skip :
    (∀ info : VariantInfo, validate info = none ↔
      (info.variants.map (fun v => variantKey v.props info.propertyKeys)).Nodup) ∧
    (∀ (info : VariantInfo) (pre : List ComponentNode) (v : ComponentNode)
      (post : List ComponentNode),
      info.variants = pre ++ v :: post →
      (pre.map (fun w => variantKey w.props info.propertyKeys)).Nodup →
      variantKey v.props info.propertyKeys ∈
        pre.map (fun w => variantKey w.props info.propertyKeys) →
      validate info = some
        ("Duplicate variant properties: " ++ variantKey v.props info.propertyKeys)) ∧
    (∀ S : ComponentSetNode,
      (∃ info e, readVariantProperties S = some info ∧ validate info = some e) →
      processSetF S = none) ∧
    (∀ (auto : Bool) (sets : List ComponentSetNode) (offX : ℚ) (i : ℕ)
      (S : ComponentSetNode),
      sets.get? i = some S → processSetF S = none →
      (processScope auto offX sets).get? i = some S) ∧
    (∀ (auto : Bool) (sets : List ComponentSetNode) (offX : ℚ) (j : ℕ)
      (S S1 : ComponentSetNode),
      sets.get? j = some S → processSetF S = some S1 →
      ∃ off2, (processScope auto offX sets).get? j =
        some (if auto then { S1 with x := off2, y := 0 } else S1)) := by
  refine ⟨?_, ?_, ?_, ?_, ?_⟩
  · intro info
    rw [validate, validateGo_none_iff]
    simp
  · intro info pre v post hsplit hnd hmem
    rw [validate, hsplit]
    exact validateGo_first_dup info.propertyKeys v post pre [] hnd
      (by simp) (Or.inr hmem)
  · intro S ⟨info, e, hread, hval⟩
    unfold processSetF
    rw [hread]
    simp [hval]
  · intro auto sets offX i S h hskip
    exact processScope_skip auto sets offX i S h hskip
  · intro auto sets offX j S S1 h hproc
    exact processScope_processed auto sets offX j S S1 h hproc

/-- First variant of the duplicated pair. -/
def c5v1 : ComponentNode :=
  mkVariant "d1" [("Color", "c"), ("Size", "16"), ("Style", "s")]

/-- Second variant, identical properties, different name. -/
def c5v2 : ComponentNode :=
  mkVariant "d2" [("Color", "c"), ("Size", "16"), ("Style", "s")]

/-- The `VariantInfo` read from `c5dupSet`. -/
def c5dupInfo : VariantInfo :=
  { propertyKeys := ["Color", "Size", "Style"]
    propertyValues := [("Color", ["c"]), ("Size", ["16"]), ("Style", ["s"])]
    variants := [c5v1, c5v2] }

/-- A set with two property-identical variants (a duplicate). -/
def c5dupSet : ComponentSetNode :=
  { name := "dup", x := 0, y := 0, width := 10, height := 10,
    children := [.comp c5v1, .comp c5v2] }

/-- A well-formed sibling set. -/
def c5okSet : ComponentSetNode :=
  { name := "ok", x := 0, y := 0, width := 10, height := 10,
    children := [.comp (mkVariant "v"
      [("Color", "c"), ("Size", "16"), ("Style", "s")])] }

/-- Witness for C5 at concrete inputs: the duplicated set's validation
names the repeated key, its loop iteration skips it (position 0 is
untouched), and the well-formed sibling at position 1 of the same run
is still laid out. -/
theorem c5_witness :
    validate c5dupInfo = some ("Duplicate variant properties: "
      ++ variantKey c5v2.props c5dupInfo.propertyKeys) ∧
    processSetF c5dupSet = none ∧
    (processScope false 0 [c5dupSet, c5okSet]).get? 0 = some c5dupSet ∧
    (∃ S1, processSetF c5okSet = some S1 ∧
      (processScope false 0 [c5dupSet, c5okSet]).get? 1 = some S1) := by
  have h2 := c5_duplicate_detection_and_skip.2.1 c5dupInfo [c5v1] c5v2 []
    rfl (by with_unfolding_all decide) (by with_unfolding_all decide)
  have hread : readVariantProperties c5dupSet = some c5dupInfo := by
    with_unfolding_all decide
  have h3 := c5_duplicate_detection_and_skip.2.2.1 c5dupSet
    ⟨c5dupInfo, _, hread, h2⟩
  have h4 := c5_duplicate_detection_and_skip.2.2.2.1 false
    [c5dupSet, c5okSet] 0 0 c5dupSet rfl h3
  rcases hS1 : processSetF c5okSet with _ | S1
  · exact absurd hS1 (by with_unfolding_all decide)
  · have h5 := c5_duplicate_detection_and_skip.2.2.2.2 false
      [c5dupSet, c5okSet] 0 1 c5okSet S1 rfl hS1
    obtain ⟨off2, hget⟩ := h5
    exact ⟨h2, h3, h4, S1, hS1 ▸ rfl, by simpa using hget⟩

/-! ## Claim C1 -/

/-- The offending variant names of a set, as reported. -/
def offendingNames (S : ComponentSetNode) : List String :=
  ((compChildren S).filter hasNonZeroRotation).map (fun c => c.name)

theorem collect_some_of_offender (S : ComponentSetNode)
    (h : ∃ c ∈ compChildren S, hasNonZeroRotation c = true) :
    collectRotationIssuesGrouped S = some (S.name, offendingNames S) := by
  obtain ⟨c, hc, hrot⟩ := h
  have hne : ¬ ((((compChildren S).filter hasNonZeroRotation).map
      (fun c => c.name)).isEmpty = true) := by
    simp only [List.isEmpty_iff, List.map_eq_nil_iff]
    intro hnil
    have hmem : c ∈ (compChildren S).filter hasNonZeroRotation :=
      List.mem_filter.2 ⟨hc, hrot⟩
    rw [hnil] at hmem
    simp at hmem
  unfold collectRotationIssuesGrouped offendingNames
  rw [if_neg hne]

theorem collect_eq_of_some (S : ComponentSetNode)
    (g : String × List String) (h : collectRotationIssuesGrouped S = some g) :
    g = (S.name, offendingNames S) ∧ offendingNames S ≠ [] := by
  unfold collectRotationIssuesGrouped at h
  split at h
  · exact absurd h (by simp)
  · rename_i hvs
    refine ⟨(Option.some.inj h).symm, ?_⟩
    simpa [List.isEmpty_iff, offendingNames] using hvs

/-- C1: if any variant of any in-scope variant-set (explicit selection,
or the whole page when nothing is selected) has non-conforming
rotation, the run aborts before any layout: the page — every variant
position, every container's child order and every container's size —
comes out exactly as it went in, and the produced report has one group
per offending variant-set, carrying that set's name and the names of
exactly its offending variants; every group in the report comes from an
offending in-scope set and every offending in-scope set contributes its
group. -/
theorem c1_rotation_global_abort (page : List (ComponentSetNode × Bool))
    (h : ∃ s ∈ pageScope page, ∃ c ∈ compChildren s,
      hasNonZeroRotation c = true) :
    (runModel page).page = page ∧
    ∃ gs, (runModel page).report = some gs ∧ gs ≠ [] ∧
      (∀ g ∈ gs, ∃ s ∈ pageScope page,
        collectRotationIssuesGrouped s = some g ∧
        g = (s.name, offendingNames s)) ∧
      (∀ s ∈ pageScope page,
        (∃ c ∈ compChildren s, hasNonZeroRotation c = true) →
        (s.name, offendingNames s) ∈ gs) := by
  obtain ⟨s0, hs0, hoff0⟩ := h
  have hpage : page.isEmpty = false := by
    rw [List.isEmpty_eq_false]
    intro hnil
    rw [hnil] at hs0
    simp [pageScope, stableSortBy] at hs0
  have hgs0 : (s0.name, offendingNames s0) ∈
      (pageScope page).filterMap collectRotationIssuesGrouped :=
    List.mem_filterMap.2 ⟨s0, hs0, collect_some_of_offender s0 hoff0⟩
  have hgrouped : ((pageScope page).filterMap
      collectRotationIssuesGrouped).isEmpty = false := by
    rw [List.isEmpty_eq_false]
    intro hnil
    rw [hnil] at hgs0
    simp at hgs0
  have hrun : runModel page =
      ⟨page, some ((pageScope page).filterMap collectRotationIssuesGrouped)⟩ := by
    unfold runModel
    rw [hpage, hgrouped]
    simp
  refine ⟨by rw [hrun], _, by rw [hrun], ?_, ?_, ?_⟩
  · intro hnil
    rw [hnil] at hgs0
    simp at hgs0
  · intro g hg
    obtain ⟨s, hs, hcol⟩ := List.mem_filterMap.1 hg
    exact ⟨s, hs, hcol, (collect_eq_of_some s g hcol).1⟩
  · intro s hs hoff
    exact List.mem_filterMap.2 ⟨s, hs, collect_some_of_offender s hoff⟩

/-- A page for the C1 witness: a clean set and a set with one variant
rotated by 5 degrees; nothing selected (whole-page scope). -/
def c1page : List (ComponentSetNode × Bool) :=
  [({ name := "clean", x := 0, y := 0, width := 10, height := 10,
      children := [.comp (mkVariant "v"
        [("Color", "c"), ("Size", "16"), ("Style", "s")])] }, false),
   ({ name := "tilted", x := 0, y := 0, width := 10, height := 10,
      children := [.comp (mkVariant "r"
        [("Color", "c"), ("Size", "16"), ("Style", "s")] 52 5)] }, false)]

/-- Witness for C1: on the concrete two-set page with one variant at
rotation 5 degrees, the hypotheses hold and the run leaves the page
untouched while reporting exactly one group — the offending set with
its single offending variant name. -/
theorem c1_rotation_global_abort_witness :
    (runModel c1page).page = c1page ∧
    (runModel c1page).report = some [("tilted", ["r"])] := by
  have h : ∃ s ∈ pageScope c1page, ∃ c ∈ compChildren s,
      hasNonZeroRotation c = true := by
    with_unfolding_all decide
  have hmain := c1_rotation_global_abort c1page h
  obtain ⟨hpage, gs, hrep, _, _, _⟩ := hmain
  refine ⟨hpage, ?_⟩
  rw [hrep]
  have : gs = [("tilted", ["r"])] := by
    have hrun : (runModel c1page).report = some [("tilted", ["r"])] := by
      with_unfolding_all decide
    rw [hrun] at hrep
    exact (Option.some.inj hrep).symm
  rw [this]

/-! ## Characterization of the plan mapping -/

/-- Horizontal advance after one set block:
`blockW + gapBetweenBlocks`. -/
def blockAdvance (sizes : List String) : ℚ :=
  (sizes.length : ℚ) * CONFIG.step + CONFIG.gapBetweenBlocks

/-- The index of a variant's block in the iteration order. -/
def blockIdxOf (info : VariantInfo) (v : ComponentNode) : ℕ :=
  axisIdx (planBlockKeys info) (setValOf v)

/-- The position `plan` computes for a variant of `info`. -/
def planPosOf (info : VariantInfo) (v : ComponentNode) : ℚ × ℚ :=
  posOfVariant (planStyles info) (planColors info) (planSizes info)
    ((blockIdxOf info v : ℚ) * blockAdvance (planSizes info)) v

/-- The variants in block iteration order. -/
def blockOrdered (variants : List ComponentNode) (gs : List String) :
    List ComponentNode :=
  gs.flatMap (fun g => variants.filter (fun v => setValOf v == g))

theorem mapSet_fresh {α} (m : List (String × α)) (k : String) (v : α)
    (h : ∀ e ∈ m, e.1 ≠ k) : mapSet m k v = m ++ [(k, v)] := by
  unfold mapSet
  rw [if_neg]
  simp only [List.any_eq_true, beq_iff_eq, not_exists, not_and]
  intro e he
  exact h e he

theorem mapGet_append {α} (m1 m2 : List (String × α)) (k : String) :
    mapGet (m1 ++ m2) k = (mapGet m1 k).or (mapGet m2 k) := by
  unfold mapGet
  rw [List.find?_append]
  cases m1.find? (fun p => p.1 == k) <;> simp

theorem mapGet_none {α} (m : List (String × α)) (k : String)
    (h : ∀ e ∈ m, e.1 ≠ k) : mapGet m k = none := by
  unfold mapGet
  rw [List.find?_eq_none.2]
  · rfl
  · intro e he
    simp only [beq_iff_eq]
    exact h e he

theorem foldl_mapSet_append (pkeys st co si : List String) (b0 : ℚ) :
    ∀ (fvs : List ComponentNode) (acc : List (String × (ℚ × ℚ))),
    (fvs.map (fun v => variantKey v.props pkeys)).Nodup →
    (∀ v ∈ fvs, ∀ e ∈ acc, e.1 ≠ variantKey v.props pkeys) →
    fvs.foldl (fun acc v => mapSet acc (variantKey v.props pkeys)
        (posOfVariant st co si b0 v)) acc
      = acc ++ fvs.map (fun v =>
          (variantKey v.props pkeys, posOfVariant st co si b0 v))
  | [], acc => by intro _ _; simp
  | v :: fvs, acc => by
    intro hnd hdisj
    rw [List.map_cons, List.nodup_cons] at hnd
    obtain ⟨hvnew, hndtail⟩ := hnd
    simp only [List.foldl_cons]
    rw [mapSet_fresh _ _ _ (fun e he => hdisj v (by simp) e he)]
    rw [foldl_mapSet_append pkeys st co si b0 fvs
      (acc ++ [(variantKey v.props pkeys, posOfVariant st co si b0 v)])
      hndtail ?_]
    · simp
    · intro w hw e he
      rcases List.mem_append.1 he with he | he
      · exact hdisj w (by simp [hw]) e he
      · rcases List.mem_singleton.1 he with rfl
        intro hkey
        have hkey' : variantKey v.props pkeys = variantKey w.props pkeys := hkey
        exact hvnew (hkey' ▸ List.mem_map_of_mem _ hw)

theorem planBlocks_mapGet (pkeys st co si : List String)
    (variants : List ComponentNode) :
    ∀ (gs : List String) (b0 : ℚ) (acc : List (String × (ℚ × ℚ)))
      (k : String),
    gs.Nodup →
    ((blockOrdered variants gs).map (fun v => variantKey v.props pkeys)).Nodup →
    (∀ v ∈ blockOrdered variants gs, ∀ e ∈ acc,
      e.1 ≠ variantKey v.props pkeys) →
    mapGet (planBlocks pkeys st co si variants gs b0 acc) k =
      (match (blockOrdered variants gs).find?
          (fun v => variantKey v.props pkeys == k) with
      | some v => some (posOfVariant st co si
          (b0 + ((gs.findIdx? (fun g => g == setValOf v)).getD 0 : ℚ)
            * blockAdvance si) v)
      | none => mapGet acc k)
  | [], b0, acc, k => by
    intro _ _ _
    simp [planBlocks, blockOrdered]
  | g :: gs, b0, acc, k => by
    intro hgnd hknd hdisj
    have hgnotin : g ∉ gs := (List.nodup_cons.1 hgnd).1
    have hbo : blockOrdered variants (g :: gs)
        = variants.filter (fun v => setValOf v == g) ++ blockOrdered variants gs := by
      simp [blockOrdered]
    rw [hbo] at hknd hdisj
    rw [List.map_append] at hknd
    have hknd1 := (List.nodup_append.1 hknd).1
    have hknd2 := (List.nodup_append.1 hknd).2.1
    have hkdisj := (List.nodup_append.1 hknd).2.2
    simp only [planBlocks]
    rw [foldl_mapSet_append pkeys st co si b0 _ acc hknd1
      (fun v hv e he => hdisj v (List.mem_append_left _ hv) e he)]
    rw [planBlocks_mapGet pkeys st co si variants gs
      (b0 + (si.length : ℚ) * CONFIG.step + CONFIG.gapBetweenBlocks) _ k
      (List.nodup_cons.1 hgnd).2 hknd2 ?_]
    · rw [hbo, List.find?_append]
      rcases hfg : (variants.filter (fun v => setValOf v == g)).find?
          (fun v => variantKey v.props pkeys == k) with _ | f
      · rw [hfg, Option.none_or]
        rcases hrest : (blockOrdered variants gs).find?
            (fun v => variantKey v.props pkeys == k) with _ | v
        · rw [hrest]
          dsimp only
          rw [mapGet_append, mapGet_none (List.map (fun v =>
              (variantKey v.props pkeys, posOfVariant st co si b0 v))
              (variants.filter (fun v => setValOf v == g))) k ?_,
            Option.or_none]
          intro e he
          rcases List.mem_map.1 he with ⟨w, hw, rfl⟩
          have hwk := List.find?_eq_none.1 hfg w hw
          simpa using hwk
        · rw [hrest]
          dsimp only
          have hvmem := List.mem_of_find?_eq_some hrest
          have hsetv : setValOf v ∈ gs := by
            rcases List.mem_flatMap.1 hvmem with ⟨g', hg', hvf⟩
            have hf2 := (List.mem_filter.1 hvf).2
            rw [beq_iff_eq] at hf2
            rw [hf2]
            exact hg'
          have hsetvg : ¬(g == setValOf v) = true := by
            simp only [beq_iff_eq]
            intro heq
            exact hgnotin (heq ▸ hsetv)
          rcases hidx : gs.findIdx? (fun g' => g' == setValOf v) with _ | i
          · exfalso
            have := List.findIdx?_eq_none_iff.1 hidx (setValOf v) hsetv
            simp at this
          · have hcons : (g :: gs).findIdx? (fun g' => g' == setValOf v)
                = some (i + 1) := by
              rw [List.findIdx?_cons, if_neg hsetvg, List.findIdx?_start_succ,
                hidx]
              simp
            rw [hcons]
            simp only [Option.getD_some]
            have harith : b0 + (si.length : ℚ) * CONFIG.step
                + CONFIG.gapBetweenBlocks + (i : ℚ) * blockAdvance si
                = b0 + ((i + 1 : ℕ) : ℚ) * blockAdvance si := by
              unfold blockAdvance
              push_cast
              ring
            rw [← harith]
      · rw [hfg, Option.or_some]
        dsimp only
        have hfk := List.find?_some hfg
        have hfmem := List.mem_of_find?_eq_some hfg
        have hfkey : variantKey f.props pkeys = k := by simpa using hfk
        have hfg' : setValOf f = g := by
          have := (List.mem_filter.1 hfmem).2
          rwa [beq_iff_eq] at this
        have hfidx : (g :: gs).findIdx? (fun g' => g' == setValOf f)
            = some 0 := by
          rw [List.findIdx?_cons, if_pos (by simp [hfg'])]
        rw [hfidx]
        simp only [Option.getD_some, Nat.cast_zero, zero_mul, add_zero]
        rcases hrest : (blockOrdered variants gs).find?
            (fun v => variantKey v.props pkeys == k) with _ | v
        · rw [hrest]
          dsimp only
          rw [mapGet_append, mapGet_none acc k ?_, Option.none_or]
          · unfold mapGet
            rw [List.find?_map]
            rw [show (List.find? ((fun p => p.1 == k) ∘ fun v =>
                (variantKey v.props pkeys, posOfVariant st co si b0 v))
                (variants.filter (fun v => setValOf v == g))) = some f from hfg]
            rfl
          · intro e he
            rw [← hfkey]
            exact hdisj f (List.mem_append_left _ hfmem) e he
        · exfalso
          have hvmem := List.mem_of_find?_eq_some hrest
          have hvk := List.find?_some hrest
          have hvkey : variantKey v.props pkeys = k := by simpa using hvk
          refine (hkdisj (List.mem_map_of_mem
            (fun v => variantKey v.props pkeys) hfmem)) ?_
          rw [hfkey, ← hvkey]
          exact List.mem_map_of_mem _ hvmem
    · intro v hv e he
      rcases List.mem_append.1 he with he | he
      · exact hdisj v (List.mem_append_right _ hv) e he
      · rcases List.mem_map.1 he with ⟨w, hw, rfl⟩
        simp only
        intro hkey
        exact (hkdisj (List.mem_map_of_mem _ hw))
          (hkey ▸ List.mem_map_of_mem _ hv)

theorem flatMap_congr {α β} (l : List α) (f g : α → List β)
    (h : ∀ a ∈ l, f a = g a) : l.flatMap f = l.flatMap g := by
  induction l with
  | nil => rfl
  | cons x xs ih =>
    simp only [List.flatMap_cons]
    rw [h x (by simp), ih (fun a ha => h a (by simp [ha]))]

theorem blockOrdered_perm :
    ∀ (gs : List String) (variants : List ComponentNode), gs.Nodup →
    (∀ v ∈ variants, setValOf v ∈ gs) →
    List.Perm (blockOrdered variants gs) variants
  | [], variants => by
    intro _ hmem
    have : variants = [] := by
      cases variants with
      | nil => rfl
      | cons v vs => exact absurd (hmem v (by simp)) (by simp)
    rw [this]
    exact List.Perm.refl _
  | g :: gs, variants => by
    intro hnd hmem
    have hgnotin : g ∉ gs := (List.nodup_cons.1 hnd).1
    have hsame : blockOrdered variants gs
        = blockOrdered (variants.filter (fun v => !(setValOf v == g))) gs := by
      unfold blockOrdered
      refine flatMap_congr gs _ _ ?_
      intro g' hg'
      rw [List.filter_filter]
      refine (List.filter_congr ?_).symm
      intro v _
      rcases hvg : setValOf v == g' with _ | _
      · simp
      · simp only [Bool.true_and, hvg]
        rw [beq_iff_eq] at hvg
        have : ¬ (setValOf v == g) = true := by
          simp only [beq_iff_eq]
          intro heq
          exact hgnotin (heq ▸ hvg ▸ hg')
        simp [this]
    have hperm2 : List.Perm
        (blockOrdered (variants.filter (fun v => !(setValOf v == g))) gs)
        (variants.filter (fun v => !(setValOf v == g))) := by
      refine blockOrdered_perm gs _ (List.nodup_cons.1 hnd).2 ?_
      intro v hv
      have hm := List.mem_filter.1 hv
      have := hmem v hm.1
      rcases List.mem_cons.1 this with heq | hin
      · exfalso
        have := hm.2
        simp [heq] at this
      · exact hin
    have : blockOrdered variants (g :: gs)
        = variants.filter (fun v => setValOf v == g) ++ blockOrdered variants gs := by
      simp [blockOrdered]
    rw [this, hsame]
    refine List.Perm.trans (List.Perm.append_left _ hperm2) ?_
    exact List.filter_append_perm _ variants

theorem find?_eq_some_of_unique {α} (key : α → String) (k : String)
    (a : α) : ∀ (l : List α), a ∈ l → key a = k →
    (∀ b ∈ l, key b = k → b = a) →
    l.find? (fun x => key x == k) = some a
  | [], ha, _, _ => absurd ha (by simp)
  | x :: xs, ha, hak, huniq => by
    rw [List.find?_cons]
    rcases hx : (key x == k) with _ | _
    · simp only
      have hax : a ≠ x := by
        intro heq
        rw [← heq, hak] at hx
        simp at hx
      have hmem : a ∈ xs := by
        rcases List.mem_cons.1 ha with heq | h
        · exact absurd heq hax
        · exact h
      exact find?_eq_some_of_unique key k a xs hmem hak
        (fun b hb hbk => huniq b (List.mem_cons_of_mem x hb) hbk)
    · simp only
      rw [beq_iff_eq] at hx
      rw [huniq x (by simp) hx]

theorem nodup_map_inj_on {α β} {f : α → β} {l : List α}
    (h : (l.map f).Nodup) :
    ∀ a ∈ l, ∀ b ∈ l, f a = f b → a = b := by
  intro a ha b hb hfab
  exact List.inj_on_of_nodup_map h ha hb hfab

theorem find?_of_perm_nodupkeys {α} (key : α → String) (k : String)
    (l1 l2 : List α) (hperm : List.Perm l1 l2)
    (hnd : (l1.map key).Nodup) :
    l1.find? (fun x => key x == k) = l2.find? (fun x => key x == k) := by
  by_cases hex : ∃ a ∈ l1, key a = k
  · obtain ⟨a, ha, hak⟩ := hex
    have huniq : ∀ b ∈ l1, key b = k → b = a := by
      intro b hb hbk
      exact nodup_map_inj_on hnd b hb a ha (by rw [hbk, hak])
    rw [find?_eq_some_of_unique key k a l1 ha hak huniq,
      find?_eq_some_of_unique key k a l2 (hperm.mem_iff.1 ha) hak
        (fun b hb hbk => huniq b (hperm.mem_iff.2 hb) hbk)]
  · push_neg at hex
    rw [List.find?_eq_none.2, List.find?_eq_none.2]
    · intro x hx
      simp only [beq_iff_eq]
      exact hex x (hperm.mem_iff.2 hx)
    · intro x hx
      simp only [beq_iff_eq]
      exact hex x hx

theorem planBlockKeys_nodup (info : VariantInfo) :
    (planBlockKeys info).Nodup := by
  unfold planBlockKeys
  rw [List.nodup_reverse]
  exact ((stableSortBy_perm strLe _).nodup_iff).2
    (dedupInOrder_nodup _)

theorem setVal_mem_planBlockKeys (info : VariantInfo)
    (v : ComponentNode) (hv : v ∈ info.variants) :
    setValOf v ∈ planBlockKeys info := by
  unfold planBlockKeys
  rw [List.mem_reverse, mem_stableSortBy, mem_dedupInOrder]
  exact List.mem_map_of_mem _ hv

theorem plan_some_eq (info : VariantInfo) (m : List (String × (ℚ × ℚ)))
    (hplan : plan info = some m) :
    m = planBlocks info.propertyKeys (planStyles info) (planColors info)
      (planSizes info) info.variants (planBlockKeys info) 0 [] ∧
    planSizes info ≠ [] ∧ planStyles info ≠ [] ∧ planColors info ≠ [] := by
  unfold plan at hplan
  split at hplan
  · exact absurd hplan (by simp)
  · rename_i hguard
    simp only [Bool.or_eq_true, List.isEmpty_iff, not_or] at hguard
    push_neg at hguard
    refine ⟨(Option.some.inj hplan).symm, ?_, ?_, ?_⟩
    · simpa [List.isEmpty_iff] using hguard.1.1
    · simpa [List.isEmpty_iff] using hguard.1.2
    · simpa [List.isEmpty_iff] using hguard.2

/-- The central characterization: when the variant keys are pairwise
distinct, looking up a key in the mapping `plan` returns finds the
unique variant with that key and yields exactly its computed grid
position. -/
theorem plan_mapGet (info : VariantInfo) (m : List (String × (ℚ × ℚ)))
    (hplan : plan info = some m)
    (hnodup : (info.variants.map
      (fun v => variantKey v.props info.propertyKeys)).Nodup) (k : String) :
    mapGet m k = (info.variants.find?
      (fun v => variantKey v.props info.propertyKeys == k)).map
        (planPosOf info) := by
  obtain ⟨hm, _, _, _⟩ := plan_some_eq info m hplan
  have hperm : List.Perm (blockOrdered info.variants (planBlockKeys info))
      info.variants :=
    blockOrdered_perm (planBlockKeys info) info.variants
      (planBlockKeys_nodup info)
      (fun v hv => setVal_mem_planBlockKeys info v hv)
  have hbknd : ((blockOrdered info.variants (planBlockKeys info)).map
      (fun v => variantKey v.props info.propertyKeys)).Nodup :=
    ((hperm.map _).nodup_iff).2 hnodup
  rw [hm, planBlocks_mapGet info.propertyKeys (planStyles info)
    (planColors info) (planSizes info) info.variants (planBlockKeys info)
    0 [] k (planBlockKeys_nodup info) hbknd (by simp)]
  rw [find?_of_perm_nodupkeys _ k _ _ hperm hbknd]
  rcases hfind : info.variants.find?
      (fun v => variantKey v.props info.propertyKeys == k) with _ | v
  · rw [hfind]
    rfl
  · rw [hfind]
    dsimp only
    rw [Option.map_some']
    unfold planPosOf blockIdxOf axisIdx
    rw [zero_add]

/-! ## Claim C6 -/

theorem axisIdx_spec : ∀ (l : List String) (a : String), a ∈ l →
    axisIdx l a < l.length ∧ l.get? (axisIdx l a) = some a
  | [], a, ha => absurd ha (by simp)
  | x :: xs, a, ha => by
    unfold axisIdx
    rw [List.findIdx?_cons]
    rcases hx : (x == a) with _ | _
    · have hax : a ∈ xs := by
        rcases List.mem_cons.1 ha with rfl | h
        · simp at hx
        · exact h
      have htail := axisIdx_spec xs a hax
      rw [if_neg (by simp [hx]), List.findIdx?_start_succ]
      rcases hj : xs.findIdx? (fun s => s == a) with _ | j
      · exfalso
        have := List.findIdx?_eq_none_iff.1 hj a hax
        simp at this
      · unfold axisIdx at htail
        rw [hj] at htail
        simp only [Option.getD_some, Option.map_some', List.length_cons,
          Nat.zero_add] at htail ⊢
        exact ⟨Nat.succ_lt_succ htail.1, by simpa using htail.2⟩
    · rw [if_pos (by simp [hx])]
      simp only [Option.getD_some, List.length_cons]
      rw [beq_iff_eq] at hx
      exact ⟨Nat.succ_pos _, by simp [hx]⟩

theorem axisIdx_inj (l : List String) (a b : String) (ha : a ∈ l)
    (hb : b ∈ l) (h : axisIdx l a = axisIdx l b) : a = b := by
  have h1 := (axisIdx_spec l a ha).2
  have h2 := (axisIdx_spec l b hb).2
  rw [h] at h1
  rw [h1] at h2
  exact Option.some.inj h2

/-- Positions laid out on a strided axis are injective: a stride index
and an in-stride offset strictly below the stride width are both
determined by the resulting coordinate. -/
theorem strided_inj (i1 i2 : ℕ) (a1 a2 W : ℚ)
    (h1 : 0 ≤ a1) (h2 : 0 ≤ a2) (h3 : a1 < W) (h4 : a2 < W)
    (heq : (i1 : ℚ) * W + a1 = (i2 : ℚ) * W + a2) : i1 = i2 ∧ a1 = a2 := by
  have hW : 0 < W := lt_of_le_of_lt h1 h3
  rcases Nat.lt_trichotomy i1 i2 with h | h | h
  · exfalso
    have hle : (i1 : ℚ) + 1 ≤ i2 := by exact_mod_cast Nat.succ_le_of_lt h
    have hmul : ((i1 : ℚ) + 1) * W ≤ (i2 : ℚ) * W :=
      mul_le_mul_of_nonneg_right hle (le_of_lt hW)
    nlinarith
  · exact ⟨h, by rw [h] at heq; linarith⟩
  · exfalso
    have hle : (i2 : ℚ) + 1 ≤ i1 := by exact_mod_cast Nat.succ_le_of_lt h
    have hmul : ((i2 : ℚ) + 1) * W ≤ (i1 : ℚ) * W :=
      mul_le_mul_of_nonneg_right hle (le_of_lt hW)
    nlinarith

/-- Grid-cell exclusivity for the computed positions: two variants of
the same set whose `Style`, `Color` and `Size` values all lie on the
axes, whose heights agree, and which differ in at least one of the four
grid properties, receive different positions. -/
theorem planPosOf_inj (info : VariantInfo) (va vb : ComponentNode)
    (hva : va ∈ info.variants) (hvb : vb ∈ info.variants)
    (hsta : propGetD va.props "Style" ∈ planStyles info)
    (hstb : propGetD vb.props "Style" ∈ planStyles info)
    (hcoa : propGetD va.props "Color" ∈ planColors info)
    (hcob : propGetD vb.props "Color" ∈ planColors info)
    (hsza : propGetD va.props "Size" ∈ planSizes info)
    (hszb : propGetD vb.props "Size" ∈ planSizes info)
    (hh : va.height = vb.height)
    (hdiff : ¬ (setValOf va = setValOf vb
      ∧ propGetD va.props "Style" = propGetD vb.props "Style"
      ∧ propGetD va.props "Color" = propGetD vb.props "Color"
      ∧ propGetD va.props "Size" = propGetD vb.props "Size")) :
    planPosOf info va ≠ planPosOf info vb := by
  intro heq
  have hx := congrArg Prod.fst heq
  have hy := congrArg Prod.snd heq
  unfold planPosOf posOfVariant at hx hy
  simp only at hx hy
  have hsxa := (axisIdx_spec (planSizes info) _ hsza).1
  have hsxb := (axisIdx_spec (planSizes info) _ hszb).1
  have hcya := (axisIdx_spec (planColors info) _ hcoa).1
  have hcyb := (axisIdx_spec (planColors info) _ hcob).1
  have hstep : CONFIG.step = 52 := rfl
  have hgap : CONFIG.gapBetweenBlocks = 52 := rfl
  have hadv : blockAdvance (planSizes info)
      = ((planSizes info).length : ℚ) * 52 + 52 := by
    unfold blockAdvance
    rw [hstep, hgap]
  have hxeq : (blockIdxOf info va : ℚ)
        * (((planSizes info).length : ℚ) * 52 + 52)
        + (axisIdx (planSizes info) (propGetD va.props "Size") : ℚ) * 52
      = (blockIdxOf info vb : ℚ)
        * (((planSizes info).length : ℚ) * 52 + 52)
        + (axisIdx (planSizes info) (propGetD vb.props "Size") : ℚ) * 52 := by
    rw [← hadv]
    rw [hstep] at hx
    linarith
  have hxinj := strided_inj (blockIdxOf info va) (blockIdxOf info vb)
    ((axisIdx (planSizes info) (propGetD va.props "Size") : ℚ) * 52)
    ((axisIdx (planSizes info) (propGetD vb.props "Size") : ℚ) * 52)
    (((planSizes info).length : ℚ) * 52 + 52)
    (by positivity) (by positivity)
    (by
      have : (axisIdx (planSizes info) (propGetD va.props "Size") : ℚ) + 1
          ≤ ((planSizes info).length : ℚ) := by
        exact_mod_cast Nat.succ_le_of_lt hsxa
      linarith)
    (by
      have : (axisIdx (planSizes info) (propGetD vb.props "Size") : ℚ) + 1
          ≤ ((planSizes info).length : ℚ) := by
        exact_mod_cast Nat.succ_le_of_lt hsxb
      linarith)
    hxeq
  have hsetEq : setValOf va = setValOf vb := by
    refine axisIdx_inj (planBlockKeys info) _ _
      (setVal_mem_planBlockKeys info va hva)
      (setVal_mem_planBlockKeys info vb hvb) ?_
    exact hxinj.1
  have hsizeEq : propGetD va.props "Size" = propGetD vb.props "Size" := by
    refine axisIdx_inj (planSizes info) _ _ hsza hszb ?_
    have h52 := hxinj.2
    have : (axisIdx (planSizes info) (propGetD va.props "Size") : ℚ)
        = (axisIdx (planSizes info) (propGetD vb.props "Size") : ℚ) := by
      linarith
    exact_mod_cast this
  have hyeq : (axisIdx (planStyles info) (propGetD va.props "Style") : ℚ)
        * (((planColors info).length : ℚ) * 52)
        + (axisIdx (planColors info) (propGetD va.props "Color") : ℚ) * 52
      = (axisIdx (planStyles info) (propGetD vb.props "Style") : ℚ)
        * (((planColors info).length : ℚ) * 52)
        + (axisIdx (planColors info) (propGetD vb.props "Color") : ℚ) * 52 := by
    rw [hstep] at hy
    rw [hh] at hy
    linarith
  have hyinj := strided_inj
    (axisIdx (planStyles info) (propGetD va.props "Style"))
    (axisIdx (planStyles info) (propGetD vb.props "Style"))
    ((axisIdx (planColors info) (propGetD va.props "Color") : ℚ) * 52)
    ((axisIdx (planColors info) (propGetD vb.props "Color") : ℚ) * 52)
    (((planColors info).length : ℚ) * 52)
    (by positivity) (by positivity)
    (by
      have : (axisIdx (planColors info) (propGetD va.props "Color") : ℚ) + 1
          ≤ ((planColors info).length : ℚ) := by
        exact_mod_cast Nat.succ_le_of_lt hcya
      linarith)
    (by
      have : (axisIdx (planColors info) (propGetD vb.props "Color") : ℚ) + 1
          ≤ ((planColors info).length : ℚ) := by
        exact_mod_cast Nat.succ_le_of_lt hcyb
      linarith)
    hyeq
  have hstyleEq : propGetD va.props "Style" = propGetD vb.props "Style" :=
    axisIdx_inj (planStyles info) _ _ hsta hstb hyinj.1
  have hcolorEq : propGetD va.props "Color" = propGetD vb.props "Color" := by
    refine axisIdx_inj (planColors info) _ _ hcoa hcob ?_
    have h52 := hyinj.2
    have : (axisIdx (planColors info) (propGetD va.props "Color") : ℚ)
        = (axisIdx (planColors info) (propGetD vb.props "Color") : ℚ) := by
      linarith
    exact_mod_cast this
  exact hdiff ⟨hsetEq, hstyleEq, hcolorEq, hsizeEq⟩

/-- The C6 counterexample set: two variants identical on Set, Style,
Color and Size, distinguished only by an extra `Tag` property. -/
def c6cexSet : ComponentSetNode :=
  { name := "c6", x := 0, y := 0, width := 10, height := 10,
    children := [
      .comp (mkVariant "t1"
        [("Set","a"),("Style","s"),("Color","c"),("Size","16"),("Tag","1")]),
      .comp (mkVariant "t2"
        [("Set","a"),("Style","s"),("Color","c"),("Size","16"),("Tag","2")]) ] }

/-- C6 counterexample: `plan` maps the two distinct canonical keys
`"c|a|16|s|1"` and `"c|a|16|s|2"` — the variants differ only in the
extra `Tag` property — to the same coordinate `(20, 20)`, so within
this variant-set two distinct canonical keys share an `(x, y)` pair
(and the set passes duplicate validation). -/
theorem c6_non_overlap_counterexample :
    ((readVariantProperties c6cexSet).bind plan) = some
      [("c|a|16|s|1", (20, 20)), ("c|a|16|s|2", (20, 20))] ∧
    ("c|a|16|s|1" : String) ≠ "c|a|16|s|2" ∧
    ((readVariantProperties c6cexSet).map validate) = some none := by
  exact ⟨by with_unfolding_all decide, by decide, by with_unfolding_all decide⟩

/-- C6 amended: within one variant-set, no two distinct canonical keys
map to the same `(x, y)` pair, provided the two variants differ in at
least one of the four grid properties (`Set`, `Style`, `Color`,
`Size`) — not merely in extra properties — their `Style`, `Color` and
`Size` values lie on the respective axes, and their heights are equal
(unequal heights can cancel a row difference through the in-cell
vertical centering). -/
theorem c6_grid_cells_amended (info : VariantInfo)
    (m : List (String × (ℚ × ℚ))) (hplan : plan info = some m)
    (hnodup : (info.variants.map
      (fun v => variantKey v.props info.propertyKeys)).Nodup)
    (va vb : ComponentNode)
    (hva : va ∈ info.variants) (hvb : vb ∈ info.variants)
    (hsta : propGetD va.props "Style" ∈ planStyles info)
    (hstb : propGetD vb.props "Style" ∈ planStyles info)
    (hcoa : propGetD va.props "Color" ∈ planColors info)
    (hcob : propGetD vb.props "Color" ∈ planColors info)
    (hsza : propGetD va.props "Size" ∈ planSizes info)
    (hszb : propGetD vb.props "Size" ∈ planSizes info)
    (hh : va.height = vb.height)
    (hdiff : ¬ (setValOf va = setValOf vb
      ∧ propGetD va.props "Style" = propGetD vb.props "Style"
      ∧ propGetD va.props "Color" = propGetD vb.props "Color"
      ∧ propGetD va.props "Size" = propGetD vb.props "Size")) :
    mapGet m (variantKey va.props info.propertyKeys)
      = some (planPosOf info va) ∧
    mapGet m (variantKey vb.props info.propertyKeys)
      = some (planPosOf info vb) ∧
    planPosOf info va ≠ planPosOf info vb := by
  have hfa : info.variants.find? (fun w => variantKey w.props info.propertyKeys
      == variantKey va.props info.propertyKeys) = some va :=
    find?_eq_some_of_unique _ _ va info.variants hva rfl
      (fun b hb hbk => nodup_map_inj_on hnodup b hb va hva (by rw [hbk]))
  have hfb : info.variants.find? (fun w => variantKey w.props info.propertyKeys
      == variantKey vb.props info.propertyKeys) = some vb :=
    find?_eq_some_of_unique _ _ vb info.variants hvb rfl
      (fun b hb hbk => nodup_map_inj_on hnodup b hb vb hvb (by rw [hbk]))
  refine ⟨?_, ?_, planPosOf_inj info va vb hva hvb hsta hstb hcoa hcob
    hsza hszb hh hdiff⟩
  · rw [plan_mapGet info m hplan hnodup, hfa, Option.map_some']
  · rw [plan_mapGet info m hplan hnodup, hfb, Option.map_some']

/-- First witness variant: size 16. -/
def c6v16 : ComponentNode :=
  mkVariant "w16" [("Set","a"),("Style","s"),("Color","c"),("Size","16")]

/-- Second witness variant: size 24. -/
def c6v24 : ComponentNode :=
  mkVariant "w24" [("Set","a"),("Style","s"),("Color","c"),("Size","24")]

/-- A set for the C6 witness: two variants differing in `Size`. -/
def c6okSet : ComponentSetNode :=
  { name := "c6w", x := 0, y := 0, width := 10, height := 10,
    children := [.comp c6v16, .comp c6v24] }

/-- The `VariantInfo` read from `c6okSet`. -/
def c6okInfo : VariantInfo :=
  { propertyKeys := ["Color", "Set", "Size", "Style"]
    propertyValues :=
      [("Set", ["a"]), ("Style", ["s"]), ("Color", ["c"]),
        ("Size", ["16", "24"])]
    variants := [c6v16, c6v24] }

/-- The mapping `plan` produces for `c6okInfo`. -/
def c6okMap : List (String × (ℚ × ℚ)) :=
  [("c|a|16|s", (20, 20)), ("c|a|24|s", (72, 20))]

/-- Witness for C6 (amended) at a concrete input: the two variants of
`c6okSet` differ in `Size`, every hypothesis holds, and the theorem
yields their distinct positions in the planned mapping. -/
theorem c6_grid_cells_amended_witness :
    readVariantProperties c6okSet = some c6okInfo ∧
    plan c6okInfo = some c6okMap ∧
    mapGet c6okMap (variantKey c6v16.props c6okInfo.propertyKeys)
      = some (planPosOf c6okInfo c6v16) ∧
    mapGet c6okMap (variantKey c6v24.props c6okInfo.propertyKeys)
      = some (planPosOf c6okInfo c6v24) ∧
    planPosOf c6okInfo c6v16 ≠ planPosOf c6okInfo c6v24 := by
  have h := c6_grid_cells_amended c6okInfo c6okMap
    (by with_unfolding_all decide) (by with_unfolding_all decide)
    c6v16 c6v24 (by decide) (by decide)
    (by with_unfolding_all decide) (by with_unfolding_all decide)
    (by with_unfolding_all decide) (by with_unfolding_all decide)
    (by with_unfolding_all decide) (by with_unfolding_all decide)
    rfl (by decide)
  exact ⟨by with_unfolding_all decide, by with_unfolding_all decide,
    h.1, h.2.1, h.2.2⟩

/-! ## Claim C10 -/

/-- Erase exactly the node state `apply` is allowed to write: positions
on all children, and constraints (recursively) on variants. Everything
else — names, widths, heights, properties, rotations, nested structure
and sizes — survives the erasure, so equality of erased children states
that only the permitted fields were mutated. -/
def eraseMut : ChildNode → ChildNode
  | .comp c => .comp { c with
      x := 0
      y := 0
      constraints := minConstraints
      inner := resetInnerList c.inner }
  | .other o => .other { o with x := 0, y := 0 }

mutual

/-- Every constraints field present in the tree is `MIN`/`MIN`. -/
def innerAllMin : InnerNode → Bool
  | .mk _ _ c ch =>
    (match c with
      | none => true
      | some cc => cc == minConstraints) && innerAllMinList ch

def innerAllMinList : List InnerNode → Bool
  | [] => true
  | a :: as => innerAllMin a && innerAllMinList as

end

mutual

theorem resetInner_allMin : ∀ n : InnerNode, innerAllMin (resetInner n) = true
  | .mk w h c ch => by
    simp only [resetInner, innerAllMin]
    rw [resetInnerList_allMin ch]
    cases c <;> simp

theorem resetInnerList_allMin : ∀ l : List InnerNode,
    innerAllMinList (resetInnerList l) = true
  | [] => rfl
  | a :: as => by
    simp only [resetInnerList, innerAllMinList]
    rw [resetInner_allMin a, resetInnerList_allMin as]
    rfl

end

mutual

theorem resetInner_idem : ∀ n : InnerNode,
    resetInner (resetInner n) = resetInner n
  | .mk w h c ch => by
    simp only [resetInner]
    rw [resetInnerList_idem ch]
    cases c <;> rfl

theorem resetInnerList_idem : ∀ l : List InnerNode,
    resetInnerList (resetInnerList l) = resetInnerList l
  | [] => rfl
  | a :: as => by
    simp only [resetInnerList]
    rw [resetInner_idem a, resetInnerList_idem as]

end

theorem eraseMut_placeChild (pkeys : List String)
    (m : List (String × (ℚ × ℚ))) (c : ChildNode) :
    eraseMut (placeChild pkeys m c) = eraseMut c := by
  cases c with
  | comp c =>
    unfold placeChild eraseMut
    simp only [ChildNode.comp.injEq]
    rw [resetInnerList_idem]
  | other o => rfl

theorem eraseMut_shiftChild (dx dy : ℚ) (c : ChildNode) :
    eraseMut (shiftChild dx dy c) = eraseMut c := by
  cases c <;> rfl

/-- The frame of `apply` on the children: modulo positions and
constraints (masked by `eraseMut`), the children multiset is exactly
preserved, and every variant that comes out carries `MIN`/`MIN`
constraints recursively. -/
theorem applyModel_frame (pkeys : List String)
    (m : List (String × (ℚ × ℚ))) (S : ComponentSetNode) :
    List.Perm ((applyModel pkeys m S).children.map eraseMut)
      (S.children.map eraseMut) ∧
    (∀ c : ComponentNode, ChildNode.comp c ∈ (applyModel pkeys m S).children →
      c.constraints = minConstraints ∧ innerAllMinList c.inner = true) := by
  have hch : ∀ T : ComponentSetNode, T = applyModel pkeys m S →
      List.Perm (T.children.map eraseMut) (S.children.map eraseMut) ∧
      (∀ c : ComponentNode, ChildNode.comp c ∈ T.children →
        c.constraints = minConstraints ∧ innerAllMinList c.inner = true) := by
    intro T hT
    have hsortperm := stableSortBy_perm childPosLe
      (S.children.map (placeChild pkeys m))
    have herase : ∀ l : List ChildNode,
        (l.map (placeChild pkeys m)).map eraseMut = l.map eraseMut := by
      intro l
      rw [List.map_map]
      exact List.map_congr_left (fun c _ => eraseMut_placeChild pkeys m c)
    unfold applyModel at hT
    split at hT
    · rename_i hempty
      constructor
      · rw [hT]
        simp only
        refine List.Perm.trans (hsortperm.map eraseMut) ?_
        rw [herase]
      · intro c hc
        rw [hT] at hc
        simp only at hc
        rw [List.isEmpty_iff] at hempty
        rw [hempty] at hc
        simp at hc
    · constructor
      · rw [hT]
        simp only
        rw [List.map_map]
        have : (applyChildren pkeys m S).map
            (eraseMut ∘ shiftChild
              (boundsMinX (applyChildren pkeys m S) - CONFIG.padding)
              (boundsMinY (applyChildren pkeys m S) - CONFIG.padding))
            = (applyChildren pkeys m S).map eraseMut :=
          List.map_congr_left (fun c _ => eraseMut_shiftChild _ _ c)
        rw [this]
        unfold applyChildren
        refine List.Perm.trans (hsortperm.map eraseMut) ?_
        rw [herase]
      · intro c hc
        rw [hT] at hc
        simp only at hc
        rcases List.mem_map.1 hc with ⟨d, hd, hshift⟩
        have hd2 : d ∈ (S.children.map (placeChild pkeys m)) := by
          unfold applyChildren at hd
          exact (mem_stableSortBy childPosLe _ d).1 hd
        rcases List.mem_map.1 hd2 with ⟨e, _, hplace⟩
        cases e with
        | comp e0 =>
          rw [← hplace] at hshift
          unfold placeChild shiftChild at hshift
          simp only [ChildNode.comp.injEq] at hshift
          rw [← hshift]
          exact ⟨rfl, resetInnerList_allMin e0.inner⟩
        | other o =>
          rw [← hplace] at hshift
          unfold placeChild shiftChild at hshift
          simp at hshift
  exact hch (applyModel pkeys m S) rfl

/-- `apply` never touches the set's own name or position. -/
theorem applyModel_name_pos (pkeys : List String)
    (m : List (String × (ℚ × ℚ))) (S : ComponentSetNode) :
    (applyModel pkeys m S).name = S.name ∧
      (applyModel pkeys m S).x = S.x ∧ (applyModel pkeys m S).y = S.y := by
  unfold applyModel
  split <;> exact ⟨rfl, rfl, rfl⟩

/-- The per-set pipeline either leaves the set untouched, or performs
exactly the `apply` state change with the planned mapping. -/
theorem processSet_cases (S2 : ComponentSetNode) :
    processSet S2 = S2 ∨
      ∃ info m2, readVariantProperties S2 = some info ∧
        validate info = none ∧ plan info = some m2 ∧
        processSet S2 = applyModel info.propertyKeys m2 S2 := by
  unfold processSet processSetF
  rcases hread : readVariantProperties S2 with _ | info
  · exact Or.inl rfl
  · dsimp only
    rcases hval : validate info with _ | e
    · dsimp only
      rcases hplan : plan info with _ | m2
      · exact Or.inl rfl
      · exact Or.inr ⟨info, m2, rfl, hval, hplan, rfl⟩
    · exact Or.inl rfl

/-- C10: the frame of `apply` — (a) modulo positions (all children) and
constraints (variants, recursively), the children multiset is exactly
preserved: `apply` never changes a variant's width or height, nor any
other node data; (b) the set's own name and position are untouched
(only its size may change — the set is the only node `apply` resizes);
(c) every variant that comes out of `apply` has `MIN`/`MIN` constraints
on itself and on every nested node that carries constraints; (d) the
whole per-set pipeline either leaves the set untouched or performs
exactly the `apply` state change — `plan` itself mutates nothing. -/
theorem c10_apply_frame_effect (pkeys : List String)
    (m : List (String × (ℚ × ℚ))) (S : ComponentSetNode) :
    List.Perm ((applyModel pkeys m S).children.map eraseMut)
      (S.children.map eraseMut) ∧
    ((applyModel pkeys m S).name = S.name ∧
      (applyModel pkeys m S).x = S.x ∧ (applyModel pkeys m S).y = S.y) ∧
    (∀ c : ComponentNode, ChildNode.comp c ∈ (applyModel pkeys m S).children →
      c.constraints = minConstraints ∧ innerAllMinList c.inner = true) ∧
    (∀ S2 : ComponentSetNode, processSet S2 = S2 ∨
      ∃ info m2, readVariantProperties S2 = some info ∧
        validate info = none ∧ plan info = some m2 ∧
        processSet S2 = applyModel info.propertyKeys m2 S2) :=
  ⟨(applyModel_frame pkeys m S).1, applyModel_name_pos pkeys m S,
    (applyModel_frame pkeys m S).2, fun S2 => processSet_cases S2⟩

/-- A variant with a nested layer carrying stretchy constraints. -/
def c10comp : ComponentNode :=
  { name := "v", x := 5, y := 7, width := 30, height := 40, rotation := 0,
    props := [("Size", "16")], constraints := ⟨"SCALE", "SCALE"⟩,
    inner := [.mk 10 10 (some ⟨"SCALE", "STRETCH"⟩) []] }

/-- A one-variant set for the C10 witness. -/
def c10set : ComponentSetNode :=
  { name := "w10", x := 0, y := 0, width := 3, height := 3,
    children := [.comp c10comp] }

/-- The state of `c10comp` after `apply` with an empty mapping: moved
to the padding corner, constraints reset recursively, size intact. -/
def c10placed : ComponentNode :=
  { name := "v", x := 20, y := 20, width := 30, height := 40, rotation := 0,
    props := [("Size", "16")], constraints := minConstraints,
    inner := [.mk 10 10 (some minConstraints) []] }

/-- Witness for C10 at a concrete input: the one-variant set's child
comes out of `apply` with only position and constraints changed —
width, height and the nested layer's size are intact, the constraints
are `MIN`/`MIN` down the tree, and the erased children multisets
coincide. -/
theorem c10_apply_frame_effect_witness :
    List.Perm ((applyModel [] [] c10set).children.map eraseMut)
      (c10set.children.map eraseMut) ∧
    (applyModel [] [] c10set).name = c10set.name ∧
    ChildNode.comp c10placed ∈ (applyModel [] [] c10set).children ∧
    c10placed.constraints = minConstraints ∧
    innerAllMinList c10placed.inner = true ∧
    c10placed.width = c10comp.width ∧ c10placed.height = c10comp.height := by
  have h := c10_apply_frame_effect [] [] c10set
  have hmem : ChildNode.comp c10placed ∈ (applyModel [] [] c10set).children := by
    with_unfolding_all decide
  have h3 := h.2.2.1 c10placed hmem
  exact ⟨h.1, h.2.1.1, hmem, h3.1, h3.2,
    by with_unfolding_all decide, by with_unfolding_all decide⟩

/-! ## Claim C7 -/

/-- A valid variant-set whose two `Size` values `"8"` and `"08"` are
numerically tied under `Number()`: the numeric sort of the size axis is
then order-dependent, and a second run reads the axis in a different
order. -/
def c7cexSet : ComponentSetNode :=
  { name := "cex7", x := 0, y := 0, width := 100, height := 100,
    children :=
      [ .comp (mkVariant "B" [("Set", "a"), ("Style", "s"),
          ("Color", "solid"), ("Size", "8")] 52 0),
        .comp (mkVariant "A" [("Set", "a"), ("Style", "s"),
          ("Color", "none"), ("Size", "08")] 52 0) ] }

/-- C7 counterexample: `c7cexSet` is a valid variant-set — validation
passes and `plan` succeeds — yet the second `plan`+`apply` pass moves
its children: the child x coordinates are `[72, 20]` after one pass and
`[20, 72]` after two, so re-running drifts. -/
theorem c7_idempotence_counterexample :
    (readVariantProperties c7cexSet).map validate = some none ∧
    ((readVariantProperties c7cexSet).bind plan).isSome = true ∧
    (processSet c7cexSet).children.map ChildNode.getX = [72, 20] ∧
    (processSet (processSet c7cexSet)).children.map ChildNode.getX
      = [20, 72] ∧
    processSet (processSet c7cexSet) ≠ processSet c7cexSet := by
  refine ⟨by with_unfolding_all decide, by with_unfolding_all decide,
    by with_unfolding_all decide, by with_unfolding_all decide,
    by with_unfolding_all decide⟩

theorem childPosLe_total : LeTotal childPosLe := by
  intro a b
  unfold childPosLe
  simp only [decide_eq_true_eq]
  rcases lt_trichotomy a.getY b.getY with h | h | h
  · exact Or.inl (Or.inl h)
  · rcases le_total a.getX b.getX with hx | hx
    · exact Or.inl (Or.inr ⟨h, hx⟩)
    · exact Or.inr (Or.inr ⟨h.symm, hx⟩)
  · exact Or.inr (Or.inl h)

theorem childPosLe_trans : LeTrans childPosLe := by
  intro a b c h1 h2
  unfold childPosLe at h1 h2 ⊢
  simp only [decide_eq_true_eq] at h1 h2 ⊢
  rcases h1 with h1 | ⟨h1y, h1x⟩
  · rcases h2 with h2 | ⟨h2y, h2x⟩
    · exact Or.inl (h1.trans h2)
    · exact Or.inl (lt_of_lt_of_le h1 (le_of_eq h2y))
  · rcases h2 with h2 | ⟨h2y, h2x⟩
    · exact Or.inl (lt_of_le_of_lt (le_of_eq h1y) h2)
    · exact Or.inr ⟨h1y.trans h2y, h1x.trans h2x⟩

/-- Sorting canonicalizes: two duplicate-free lists with the same
members sort to the same list, provided the comparator is total,
transitive, and antisymmetric on the members involved. -/
theorem canonSort_eq (le : α → α → Bool) (htot : LeTotal le)
    (htr : LeTrans le) (l1 l2 : List α) (h1 : l1.Nodup) (h2 : l2.Nodup)
    (hmem : ∀ a, a ∈ l1 ↔ a ∈ l2)
    (hanti : ∀ a ∈ l1, ∀ b ∈ l1, le a b = true → le b a = true → a = b) :
    stableSortBy le l1 = stableSortBy le l2 := by
  have hp : List.Perm l1 l2 := (List.perm_ext_iff_of_nodup h1 h2).2 hmem
  have hp2 : List.Perm (stableSortBy le l1) (stableSortBy le l2) :=
    ((stableSortBy_perm le l1).trans hp).trans (stableSortBy_perm le l2).symm
  exact perm_sorted_eq le _ _ hp2 (stableSortBy_pairwise le htot htr l1)
    (stableSortBy_pairwise le htot htr l2)
    (fun a ha b hb => hanti a ((mem_stableSortBy le l1 a).1 ha)
      b ((mem_stableSortBy le l1 b).1 hb))

/-- Looking a key up in a keyed tabulation finds the tabulated value. -/
theorem mapGet_keyMap {α} (f : String → α) (k : String) :
    ∀ ks : List String, mapGet (ks.map (fun k0 => (k0, f k0))) k
      = if k ∈ ks then some (f k) else none
  | [] => rfl
  | k0 :: ks => by
    have ih := mapGet_keyMap f k ks
    rcases hk : (k0 == k) with _ | _
    · have hne : ¬ k = k0 := by
        intro h
        rw [h] at hk
        simp at hk
      simp only [List.map_cons, mapGet, List.find?_cons, hk] at ih ⊢
      rw [ih]
      simp [hne]
    · have heq : k0 = k := by simpa using hk
      simp [List.map_cons, mapGet, List.find?_cons, hk, heq]

/-- The plan-relevant data of a variant: its property object and its
height — everything the key and position computations of `plan` read. -/
def compData (c : ComponentNode) : List (String × String) × ℚ :=
  (c.props, c.height)

/-- The plan-relevant data of a child, when it is a variant. -/
def chData : ChildNode → Option (List (String × String) × ℚ)
  | .comp c => some (compData c)
  | .other _ => none

theorem chData_eraseMut (c : ChildNode) : chData (eraseMut c) = chData c := by
  cases c <;> rfl

theorem filterMap_chData (ch : List ChildNode) :
    ch.filterMap chData = (ch.filterMap (fun c => match c with
      | .comp c0 => some c0
      | .other _ => none)).map compData := by
  induction ch with
  | nil => rfl
  | cons a as ih => cases a <;> simp [List.filterMap_cons, chData, ih]

/-- `apply` preserves the multiset of plan-relevant variant data. -/
theorem applyModel_dataPerm (pkeys : List String)
    (m : List (String × (ℚ × ℚ))) (S : ComponentSetNode) :
    List.Perm ((compChildren (applyModel pkeys m S)).map compData)
      ((compChildren S).map compData) := by
  have h2 := ((applyModel_frame pkeys m S).1).filterMap chData
  rw [List.filterMap_map, List.filterMap_map] at h2
  have hco : chData ∘ eraseMut = chData := funext chData_eraseMut
  rw [hco] at h2
  rw [filterMap_chData, filterMap_chData] at h2
  exact h2

/-- Membership in the key scan is determined by the data multiset. -/
theorem allPropKeys_mem_iff (c1 c2 : List ComponentNode)
    (hperm : List.Perm (c1.map compData) (c2.map compData)) (a : String) :
    a ∈ allPropKeys c1 ↔ a ∈ allPropKeys c2 := by
  unfold allPropKeys
  simp only [List.mem_map, List.mem_flatMap]
  constructor
  · rintro ⟨p, ⟨c, hc, hp⟩, hpa⟩
    have hmem : compData c ∈ c2.map compData :=
      hperm.mem_iff.1 (List.mem_map_of_mem compData hc)
    rcases List.mem_map.1 hmem with ⟨d, hd, hdd⟩
    have hprops : d.props = c.props := congrArg Prod.fst hdd
    exact ⟨p, ⟨d, hd, by rw [hprops]; exact hp⟩, hpa⟩
  · rintro ⟨p, ⟨c, hc, hp⟩, hpa⟩
    have hmem : compData c ∈ c1.map compData :=
      hperm.mem_iff.2 (List.mem_map_of_mem compData hc)
    rcases List.mem_map.1 hmem with ⟨d, hd, hdd⟩
    have hprops : d.props = c.props := congrArg Prod.fst hdd
    exact ⟨p, ⟨d, hd, by rw [hprops]; exact hp⟩, hpa⟩

/-- The observed value set of a key is determined by the data
multiset. -/
theorem valuesFor_mem_iff (c1 c2 : List ComponentNode)
    (hperm : List.Perm (c1.map compData) (c2.map compData))
    (k a : String) : a ∈ valuesFor c1 k ↔ a ∈ valuesFor c2 k := by
  unfold valuesFor
  rw [mem_dedupInOrder, mem_dedupInOrder]
  simp only [List.mem_filterMap]
  constructor
  · rintro ⟨c, hc, hp⟩
    have hmem : compData c ∈ c2.map compData :=
      hperm.mem_iff.1 (List.mem_map_of_mem compData hc)
    rcases List.mem_map.1 hmem with ⟨d, hd, hdd⟩
    have hprops : d.props = c.props := congrArg Prod.fst hdd
    exact ⟨d, hd, by rw [hprops]; exact hp⟩
  · rintro ⟨c, hc, hp⟩
    have hmem : compData c ∈ c1.map compData :=
      hperm.mem_iff.2 (List.mem_map_of_mem compData hc)
    rcases List.mem_map.1 hmem with ⟨d, hd, hdd⟩
    have hprops : d.props = c.props := congrArg Prod.fst hdd
    exact ⟨d, hd, by rw [hprops]; exact hp⟩

theorem valuesFor_nodup (comps : List ComponentNode) (k : String) :
    (valuesFor comps k).Nodup := by
  unfold valuesFor
  exact dedupInOrder_nodup _

/-- The observed `Set` values are determined by the data multiset. -/
theorem setVals_mem_iff (c1 c2 : List ComponentNode)
    (hperm : List.Perm (c1.map compData) (c2.map compData)) (a : String) :
    a ∈ c1.map setValOf ↔ a ∈ c2.map setValOf := by
  simp only [List.mem_map]
  constructor
  · rintro ⟨c, hc, hv⟩
    have hmem : compData c ∈ c2.map compData :=
      hperm.mem_iff.1 (List.mem_map_of_mem compData hc)
    rcases List.mem_map.1 hmem with ⟨d, hd, hdd⟩
    have hprops : d.props = c.props := congrArg Prod.fst hdd
    refine ⟨d, hd, ?_⟩
    unfold setValOf
    rw [hprops]
    exact hv
  · rintro ⟨c, hc, hv⟩
    have hmem : compData c ∈ c1.map compData :=
      hperm.mem_iff.2 (List.mem_map_of_mem compData hc)
    rcases List.mem_map.1 hmem with ⟨d, hd, hdd⟩
    have hprops : d.props = c.props := congrArg Prod.fst hdd
    refine ⟨d, hd, ?_⟩
    unfold setValOf
    rw [hprops]
    exact hv

/-- The canonical key multiset is determined by the data multiset. -/
theorem keys_perm_of_dataPerm (pk : List String)
    (l1 l2 : List ComponentNode)
    (hperm : List.Perm (l1.map compData) (l2.map compData)) :
    List.Perm (l1.map (fun v => variantKey v.props pk))
      (l2.map (fun v => variantKey v.props pk)) := by
  have h := hperm.map (fun d => variantKey d.1 pk)
  rw [List.map_map, List.map_map] at h
  exact h

/-- `validate` passes exactly when the canonical keys are pairwise
distinct. -/
theorem validate_none_iff (info : VariantInfo) :
    validate info = none ↔
      (info.variants.map
        (fun v => variantKey v.props info.propertyKeys)).Nodup := by
  unfold validate
  rw [validateGo_none_iff]
  simp

/-- Reduction of `readVariantProperties` on a set with variants. -/
theorem readVariantProperties_eq (S : ComponentSetNode)
    (h : compChildren S ≠ []) :
    readVariantProperties S = some
      { propertyKeys :=
          stableSortBy strLe (dedupInOrder (allPropKeys (compChildren S)))
        propertyValues := (dedupInOrder (allPropKeys (compChildren S))).map
          (fun k => (k, valuesFor (compChildren S) k))
        variants :=
          stableSortBy (fun a b => strLe a.name b.name) (compChildren S) } := by
  simp only [readVariantProperties]
  rw [if_neg (by simpa [List.isEmpty_iff] using h)]

theorem readVariantProperties_ne_nil (S : ComponentSetNode)
    (i : VariantInfo) (h : readVariantProperties S = some i) :
    compChildren S ≠ [] := by
  intro h0
  simp [readVariantProperties, h0] at h

/-- The grid position depends only on the property object and the
height of the variant. -/
theorem planPosOf_data_congr (info : VariantInfo) (v w : ComponentNode)
    (hp : v.props = w.props) (hh : v.height = w.height) :
    planPosOf info v = planPosOf info w := by
  unfold planPosOf blockIdxOf setValOf posOfVariant
  rw [hp, hh]

/-- The grid position depends on the analysis only through the four
axis lists. -/
theorem planPosOf_axes_congr (i1 i2 : VariantInfo)
    (hst : planStyles i1 = planStyles i2)
    (hco : planColors i1 = planColors i2)
    (hsz : planSizes i1 = planSizes i2)
    (hbk : planBlockKeys i1 = planBlockKeys i2) (v : ComponentNode) :
    planPosOf i1 v = planPosOf i2 v := by
  unfold planPosOf blockIdxOf
  rw [hst, hco, hsz, hbk]

/-- A variant node carrying only plan-relevant data. -/
def dummyOf (d : List (String × String) × ℚ) : ComponentNode :=
  { name := "", x := 0, y := 0, width := 0, height := d.2, rotation := 0,
    props := d.1, constraints := minConstraints, inner := [] }

/-- The grid position as a function of the plan-relevant data alone. -/
def planPosOfData (info : VariantInfo)
    (d : List (String × String) × ℚ) : ℚ × ℚ :=
  planPosOf info (dummyOf d)

theorem planPosOf_eq_data (info : VariantInfo) (v : ComponentNode) :
    planPosOf info v = planPosOfData info (compData v) :=
  planPosOf_data_congr info v (dummyOf (compData v)) rfl rfl

/-- The planned-position lookup over a variant list is determined by
the data multiset, once the canonical keys are duplicate-free. -/
theorem find?_planPos_congr (info : VariantInfo) (pk : List String)
    (k : String) (l1 l2 : List ComponentNode)
    (hperm : List.Perm (l1.map compData) (l2.map compData))
    (hnd : (l1.map (fun v => variantKey v.props pk)).Nodup) :
    (l1.find? (fun v => variantKey v.props pk == k)).map (planPosOf info)
      = (l2.find? (fun v => variantKey v.props pk == k)).map
          (planPosOf info) := by
  have e : ∀ l : List ComponentNode,
      (l.find? (fun v => variantKey v.props pk == k)).map (planPosOf info)
        = ((l.map compData).find? (fun d => variantKey d.1 pk == k)).map
            (planPosOfData info) := by
    intro l
    rw [List.find?_map, Option.map_map]
    have hfun : planPosOfData info ∘ compData = planPosOf info :=
      funext (fun v => (planPosOf_eq_data info v).symm)
    rw [hfun]
    rfl
  have hnd2 : ((l1.map compData).map (fun d => variantKey d.1 pk)).Nodup := by
    rw [List.map_map]
    exact hnd
  have h34 := find?_of_perm_nodupkeys (fun d => variantKey d.1 pk) k
    (l1.map compData) (l2.map compData) hperm hnd2
  have h35 : (l1.map compData).find? (fun d => variantKey d.1 pk == k)
      = (l2.map compData).find? (fun d => variantKey d.1 pk == k) := h34
  rw [e l1, e l2, h35]

/-- Two sets whose variant data multisets agree analyse to the same
grid: same sorted key list, same three axes, same block order, and
data-equivalent variant lists. The antisymmetry of the numeric size
order is supplied for the first set's size values. -/
theorem info_axes_congr (SA SB : ComponentSetNode) (iA iB : VariantInfo)
    (h1 : readVariantProperties SA = some iA)
    (h2 : readVariantProperties SB = some iB)
    (hperm : List.Perm ((compChildren SA).map compData)
      ((compChildren SB).map compData))
    (hanti : ∀ a ∈ valuesFor (compChildren SA) "Size",
      ∀ b ∈ valuesFor (compChildren SA) "Size",
      numVal a = numVal b → a = b) :
    iA.propertyKeys = iB.propertyKeys ∧
    planStyles iA = planStyles iB ∧
    planColors iA = planColors iB ∧
    planSizes iA = planSizes iB ∧
    planBlockKeys iA = planBlockKeys iB ∧
    List.Perm (iA.variants.map compData) (iB.variants.map compData) := by
  have hAne : compChildren SA ≠ [] := readVariantProperties_ne_nil SA iA h1
  have hBne : compChildren SB ≠ [] := readVariantProperties_ne_nil SB iB h2
  have hiA := Option.some.inj ((readVariantProperties_eq SA hAne).symm.trans h1)
  have hiB := Option.some.inj ((readVariantProperties_eq SB hBne).symm.trans h2)
  have hApk : iA.propertyKeys =
      stableSortBy strLe (dedupInOrder (allPropKeys (compChildren SA))) :=
    (congrArg VariantInfo.propertyKeys hiA).symm
  have hBpk : iB.propertyKeys =
      stableSortBy strLe (dedupInOrder (allPropKeys (compChildren SB))) :=
    (congrArg VariantInfo.propertyKeys hiB).symm
  have hApv : iA.propertyValues =
      (dedupInOrder (allPropKeys (compChildren SA))).map
        (fun k => (k, valuesFor (compChildren SA) k)) :=
    (congrArg VariantInfo.propertyValues hiA).symm
  have hBpv : iB.propertyValues =
      (dedupInOrder (allPropKeys (compChildren SB))).map
        (fun k => (k, valuesFor (compChildren SB) k)) :=
    (congrArg VariantInfo.propertyValues hiB).symm
  have hAvar : iA.variants =
      stableSortBy (fun a b => strLe a.name b.name) (compChildren SA) :=
    (congrArg VariantInfo.variants hiA).symm
  have hBvar : iB.variants =
      stableSortBy (fun a b => strLe a.name b.name) (compChildren SB) :=
    (congrArg VariantInfo.variants hiB).symm
  have hKS : ∀ a, a ∈ dedupInOrder (allPropKeys (compChildren SA)) ↔
      a ∈ dedupInOrder (allPropKeys (compChildren SB)) := by
    intro a
    rw [mem_dedupInOrder, mem_dedupInOrder]
    exact allPropKeys_mem_iff _ _ hperm a
  have hgetA : ∀ k0, mapGet iA.propertyValues k0
      = if k0 ∈ dedupInOrder (allPropKeys (compChildren SA)) then
          some (valuesFor (compChildren SA) k0) else none := by
    intro k0
    rw [hApv]
    exact mapGet_keyMap _ k0 _
  have hgetB : ∀ k0, mapGet iB.propertyValues k0
      = if k0 ∈ dedupInOrder (allPropKeys (compChildren SB)) then
          some (valuesFor (compChildren SB) k0) else none := by
    intro k0
    rw [hBpv]
    exact mapGet_keyMap _ k0 _
  refine ⟨?_, ?_, ?_, ?_, ?_, ?_⟩
  · rw [hApk, hBpk]
    exact canonSort_eq strLe strLe_total strLe_trans _ _
      (dedupInOrder_nodup _) (dedupInOrder_nodup _) hKS
      (fun a _ b _ hab hba => strLe_antisymm a b hab hba)
  · unfold planStyles
    rw [hgetA "Style", hgetB "Style"]
    by_cases hk : "Style" ∈ dedupInOrder (allPropKeys (compChildren SA))
    · rw [if_pos hk, if_pos ((hKS _).1 hk)]
      simp only [Option.getD_some]
      unfold sortStyleKeysDesc
      rw [canonSort_eq strLe strLe_total strLe_trans _ _
        (valuesFor_nodup _ _) (valuesFor_nodup _ _)
        (fun a => valuesFor_mem_iff _ _ hperm "Style" a)
        (fun a _ b _ hab hba => strLe_antisymm a b hab hba)]
    · rw [if_neg hk, if_neg (fun hc => hk ((hKS _).2 hc))]
  · unfold planColors
    rw [hgetA "Color", hgetB "Color"]
    by_cases hk : "Color" ∈ dedupInOrder (allPropKeys (compChildren SA))
    · rw [if_pos hk, if_pos ((hKS _).1 hk)]
      simp only [Option.getD_some]
      unfold sortColorKeys
      rw [canonSort_eq colorLe colorLe_total colorLe_trans _ _
        (valuesFor_nodup _ _) (valuesFor_nodup _ _)
        (fun a => valuesFor_mem_iff _ _ hperm "Color" a)
        (fun a _ b _ hab hba => colorLe_antisymm a b hab hba)]
    · rw [if_neg hk, if_neg (fun hc => hk ((hKS _).2 hc))]
  · unfold planSizes
    rw [hgetA "Size", hgetB "Size"]
    by_cases hk : "Size" ∈ dedupInOrder (allPropKeys (compChildren SA))
    · rw [if_pos hk, if_pos ((hKS _).1 hk)]
      simp only [Option.getD_some]
      unfold sortSizeKeys
      rw [canonSort_eq numLe numLe_total numLe_trans _ _
        (valuesFor_nodup _ _) (valuesFor_nodup _ _)
        (fun a => valuesFor_mem_iff _ _ hperm "Size" a)
        (fun a ha b hb hab hba => hanti a ha b hb
          (le_antisymm (of_decide_eq_true hab) (of_decide_eq_true hba)))]
    · rw [if_neg hk, if_neg (fun hc => hk ((hKS _).2 hc))]
  · unfold planBlockKeys
    rw [hAvar, hBvar]
    congr 1
    refine canonSort_eq strLe strLe_total strLe_trans _ _
      (dedupInOrder_nodup _) (dedupInOrder_nodup _) ?_
      (fun a _ b _ hab hba => strLe_antisymm a b hab hba)
    intro a
    rw [mem_dedupInOrder, mem_dedupInOrder,
      ((stableSortBy_perm _ (compChildren SA)).map setValOf).mem_iff,
      ((stableSortBy_perm _ (compChildren SB)).map setValOf).mem_iff]
    exact setVals_mem_iff _ _ hperm a
  · rw [hAvar, hBvar]
    exact (((stableSortBy_perm _ _).map compData).trans hperm).trans
      ((stableSortBy_perm _ _).map compData).symm

/-- Re-placing a shifted placed variant restores it: the position is
overwritten from the mapping and the constraint reset is idempotent. -/
theorem place_shift_place (pk : List String) (m : List (String × (ℚ × ℚ)))
    (dx dy : ℚ) (c0 : ComponentNode) :
    placeChild pk m (shiftChild dx dy (placeChild pk m (.comp c0)))
      = placeChild pk m (.comp c0) := by
  simp only [placeChild, shiftChild, ChildNode.comp.injEq]
  rw [resetInnerList_idem]

/-- The core of C7: a set all of whose children are variants and whose
size values are numerically unambiguous reaches a fixed point after one
pass — the second analysis sees the same grid, plans the same mapping,
and the second `apply` moves nothing. -/
theorem processSet_idem_core (S : ComponentSetNode)
    (hcomp : ∀ c ∈ S.children, c.isComp = true)
    (hszinj : ∀ a ∈ valuesFor (compChildren S) "Size",
      ∀ b ∈ valuesFor (compChildren S) "Size", numVal a = numVal b → a = b)
    (i1 : VariantInfo) (m1 : List (String × (ℚ × ℚ)))
    (hread1 : readVariantProperties S = some i1)
    (hval1 : validate i1 = none) (hplan1 : plan i1 = some m1) :
    ∃ i2 m2, readVariantProperties (processSet S) = some i2 ∧
      validate i2 = none ∧ plan i2 = some m2 ∧
      (∀ k, mapGet m2 k = mapGet m1 k) ∧
      processSet (processSet S) = processSet S := by
  have hcompsne : compChildren S ≠ [] :=
    readVariantProperties_ne_nil S i1 hread1
  have hSne : S.children ≠ [] := by
    intro h0
    apply hcompsne
    unfold compChildren
    rw [h0]
    rfl
  have heq : processSet S = applyModel i1.propertyKeys m1 S := by
    unfold processSet processSetF
    rw [hread1]
    dsimp only
    rw [hval1]
    dsimp only
    rw [hplan1]
    rfl
  rw [heq]
  generalize hS1def : applyModel i1.propertyKeys m1 S = S1
  have hS1ch : S1.children = (applyChildren i1.propertyKeys m1 S).map
      (shiftChild
        (boundsMinX (applyChildren i1.propertyKeys m1 S) - CONFIG.padding)
        (boundsMinY (applyChildren i1.propertyKeys m1 S) - CONFIG.padding)) := by
    rw [← hS1def, applyModel_eq _ _ _ hSne]
  have hS1ne : S1.children ≠ [] := by
    rw [hS1ch]
    exact map_shift_ne_nil (applyChildren_ne_nil _ _ _ hSne)
  have hdataPerm : List.Perm ((compChildren S1).map compData)
      ((compChildren S).map compData) := by
    rw [← hS1def]
    exact applyModel_dataPerm _ _ _
  have hcne2 : compChildren S1 ≠ [] := by
    intro h0
    have hlen := hdataPerm.length_eq
    rw [h0] at hlen
    simp only [List.map_nil, List.length_nil, List.length_map] at hlen
    exact hcompsne (List.eq_nil_of_length_eq_zero hlen.symm)
  obtain ⟨i2, hread2⟩ : ∃ i2, readVariantProperties S1 = some i2 :=
    ⟨_, readVariantProperties_eq S1 hcne2⟩
  obtain ⟨hpk, hst, hco, hsz, hbk, hvperm⟩ :=
    info_axes_congr S S1 i1 i2 hread1 hread2 hdataPerm.symm hszinj
  have hknd1 : (i1.variants.map
      (fun v => variantKey v.props i1.propertyKeys)).Nodup :=
    (validate_none_iff i1).1 hval1
  have hkperm :=
    keys_perm_of_dataPerm i1.propertyKeys i1.variants i2.variants hvperm
  have hknd2a : (i2.variants.map
      (fun v => variantKey v.props i1.propertyKeys)).Nodup :=
    (hkperm.nodup_iff).1 hknd1
  have hknd2 : (i2.variants.map
      (fun v => variantKey v.props i2.propertyKeys)).Nodup := by
    rw [← hpk]
    exact hknd2a
  have hval2 : validate i2 = none := (validate_none_iff i2).2 hknd2
  obtain ⟨hm1, hsz1, hst1, hco1⟩ := plan_some_eq i1 m1 hplan1
  have hguard : ¬(((planSizes i2).isEmpty || (planStyles i2).isEmpty
      || (planColors i2).isEmpty) = true) := by
    simp only [Bool.or_eq_true, List.isEmpty_iff]
    push_neg
    exact ⟨⟨by rw [← hsz]; exact hsz1, by rw [← hst]; exact hst1⟩,
      by rw [← hco]; exact hco1⟩
  have hplan2x : plan i2 = some (planBlocks i2.propertyKeys (planStyles i2)
      (planColors i2) (planSizes i2) i2.variants (planBlockKeys i2) 0 []) := by
    unfold plan
    rw [if_neg hguard]
  obtain ⟨m2, hplan2⟩ : ∃ m2, plan i2 = some m2 := ⟨_, hplan2x⟩
  have hmapeq : ∀ k, mapGet m2 k = mapGet m1 k := by
    intro k
    rw [plan_mapGet i2 m2 hplan2 hknd2 k, plan_mapGet i1 m1 hplan1 hknd1 k]
    have hposf : planPosOf i2 = planPosOf i1 :=
      funext (fun v => planPosOf_axes_congr i2 i1 hst.symm hco.symm
        hsz.symm hbk.symm v)
    rw [← hpk, hposf]
    exact find?_planPos_congr i1 i1.propertyKeys k i2.variants i1.variants
      hvperm.symm hknd2a
  have hplaceEq : ∀ c : ChildNode,
      placeChild i1.propertyKeys m2 c = placeChild i1.propertyKeys m1 c := by
    intro c
    cases c with
    | comp c0 =>
      simp only [placeChild]
      rw [hmapeq]
    | other o => rfl
  have hplacefix : ∀ a ∈ applyChildren i1.propertyKeys m1 S, ∀ dx dy : ℚ,
      placeChild i1.propertyKeys m1 (shiftChild dx dy a) = a := by
    intro a ha dx dy
    have ha2 : a ∈ S.children.map (placeChild i1.propertyKeys m1) := by
      unfold applyChildren at ha
      exact (mem_stableSortBy _ _ a).1 ha
    rcases List.mem_map.1 ha2 with ⟨e, he, hpe⟩
    have hec := hcomp e he
    cases e with
    | comp e0 =>
      rw [← hpe]
      exact place_shift_place _ _ _ _ e0
    | other o => simp [ChildNode.isComp] at hec
  have hsorted1 : (applyChildren i1.propertyKeys m1 S).Pairwise
      (fun a b => childPosLe a b = true) := by
    unfold applyChildren
    exact stableSortBy_pairwise childPosLe childPosLe_total childPosLe_trans _
  have hch2 : S1.children.map (placeChild i2.propertyKeys m2)
      = applyChildren i1.propertyKeys m1 S := by
    rw [hS1ch, List.map_map]
    refine (List.map_congr_left ?_).trans (List.map_id _)
    intro a ha
    simp only [Function.comp_apply, id_eq]
    rw [← hpk, hplaceEq]
    exact hplacefix a ha _ _
  have hAC2 : applyChildren i2.propertyKeys m2 S1
      = applyChildren i1.propertyKeys m1 S := by
    show stableSortBy childPosLe
      (S1.children.map (placeChild i2.propertyKeys m2))
      = applyChildren i1.propertyKeys m1 S
    rw [hch2]
    exact stableSortBy_sorted_id childPosLe _ hsorted1
  have happ2 : applyModel i2.propertyKeys m2 S1 = S1 := by
    rw [applyModel_eq i2.propertyKeys m2 S1 hS1ne, hAC2, ← hS1def,
      applyModel_eq i1.propertyKeys m1 S hSne]
  have hPS1 : processSet S1 = applyModel i2.propertyKeys m2 S1 := by
    unfold processSet processSetF
    rw [hread2]
    dsimp only
    rw [hval2]
    dsimp only
    rw [hplan2]
    rfl
  exact ⟨i2, m2, hread2, hval2, hplan2, hmapeq, by rw [hPS1]; exact happ2⟩

/-- C7 (amended): the per-set pipeline accumulates no drift on re-run,
provided every child of the set is a variant (`COMPONENT`) and the
`Size` values are numerically unambiguous (`Number()` is injective on
them): the second pass leaves the set — child positions, child order
and container size — exactly as the first pass left it, and the second
analysis plans the same coordinate mapping key for key. Without these
provisos a second run can drift (see the counterexample with the
numerically tied sizes `"8"` and `"08"`). -/
theorem c7_idempotence_amended (S : ComponentSetNode)
    (hcomp : ∀ c ∈ S.children, c.isComp = true)
    (hszinj : ∀ a ∈ valuesFor (compChildren S) "Size",
      ∀ b ∈ valuesFor (compChildren S) "Size", numVal a = numVal b → a = b) :
    processSet (processSet S) = processSet S ∧
    ∀ i1 m1, readVariantProperties S = some i1 → validate i1 = none →
      plan i1 = some m1 →
      ∃ i2 m2, readVariantProperties (processSet S) = some i2 ∧
        validate i2 = none ∧ plan i2 = some m2 ∧
        ∀ k, mapGet m2 k = mapGet m1 k := by
  constructor
  · rcases processSet_cases S with hid | ⟨i1, m1, h1, h2, h3, heq⟩
    · rw [hid]
      exact hid
    · obtain ⟨i2, m2, _, _, _, _, hfinal⟩ :=
        processSet_idem_core S hcomp hszinj i1 m1 h1 h2 h3
      exact hfinal
  · intro i1 m1 h1 h2 h3
    obtain ⟨i2, m2, ha, hb, hc, hd, _⟩ :=
      processSet_idem_core S hcomp hszinj i1 m1 h1 h2 h3
    exact ⟨i2, m2, ha, hb, hc, hd⟩

/-- A small valid variant-set with all-variant children and numerically
unambiguous sizes, for the C7 witness. -/
def c7okSet : ComponentSetNode :=
  { name := "ok7", x := 0, y := 0, width := 10, height := 10,
    children :=
      [ .comp (mkVariant "A" [("Set", "a"), ("Style", "s"),
          ("Color", "none"), ("Size", "16")] 52 0),
        .comp (mkVariant "B" [("Set", "a"), ("Style", "s"),
          ("Color", "solid"), ("Size", "24")] 52 0) ] }

/-- Witness for the amended C7 at a concrete input: `c7okSet` satisfies
both provisos and the pipeline is idempotent on it. -/
theorem c7_idempotence_amended_witness :
    (∀ c ∈ c7okSet.children, c.isComp = true) ∧
    (∀ a ∈ valuesFor (compChildren c7okSet) "Size",
      ∀ b ∈ valuesFor (compChildren c7okSet) "Size",
      numVal a = numVal b → a = b) ∧
    processSet (processSet c7okSet) = processSet c7okSet :=
  ⟨by decide, by with_unfolding_all decide,
    (c7_idempotence_amended c7okSet (by decide)
      (by with_unfolding_all decide)).1⟩

end HolySheet
